import Mathlib

set_option maxHeartbeats 1000000
set_option linter.unusedVariables false

/-!
Verification development for the plan-materialization stage of the
PostgreSQL query optimizer (`src/backend/optimizer/plan/createplan.c`,
version 1.131).

Modelling conventions:

* Expression trees (`Node *` trees in C) are embedded as the inductive
  type `Expr`.  Every node carries an identity tag `eid : Nat` modelling
  its heap address; freshly allocated nodes receive tags from a counter
  that is threaded through every function that allocates.  Pointer
  comparison is comparison of `eid` tags; `copyObject` re-tags every node
  it copies with fresh tags.
* C `double` cost and row-count fields are embedded as exact rationals
  (`Rat`); the `(int32)` truncating cast in `make_limit` is modelled by
  `truncRat`, truncation toward zero (32-bit wraparound is not modelled:
  values are taken to be in range).
* `elog(ERROR, ...)` aborts the planning call; fallible functions return
  `Option` and `elog` is `none`.  `Assert` is compiled out in production
  builds and is modelled as a no-op.
* External helpers whose source is not part of this repository
  (list/set utilities, `CommuteClause`, `pull_varnos`, catalog lookups,
  cost models, target-list helpers) are modelled from the spec; each such
  definition says so in its doc comment.  Catalog lookups and cost models
  are abstracted into a `Catalog` parameter.
-/

/-- Expression nodes.  `eid` is the identity (heap-address) tag; the other
fields follow the C node fields used by this file.  `subplanE` stands for a
SubPlan reference, `paramE` for a Param (an InitPlan output reference). -/
inductive Expr where
  | varE (eid varno : Nat) (varattno : Int) (vartype : Nat)
  | constE (eid : Nat) (constvalue : Int) (constisnull : Bool) (consttype : Nat)
  | paramE (eid paramid : Nat)
  | subplanE (eid planid : Nat)
  | opE (eid opno opfuncid opresulttype : Nat) (opretset : Bool) (args : List Expr)
  | boolAnd (eid : Nat) (args : List Expr)
  | boolOr (eid : Nat) (args : List Expr)
  | funcE (eid funcid resulttype : Nat) (args : List Expr)
  | relabelE (eid : Nat) (arg : Expr) (resulttype : Nat)

instance : Inhabited Expr := ⟨.constE 0 0 true 0⟩

/-- Identity tag of the top node (the value of the C pointer). -/
def Expr.eid : Expr → Nat
  | .varE i _ _ _ => i
  | .constE i _ _ _ => i
  | .paramE i _ => i
  | .subplanE i _ => i
  | .opE i _ _ _ _ _ => i
  | .boolAnd i _ => i
  | .boolOr i _ => i
  | .funcE i _ _ _ => i
  | .relabelE i _ _ => i

mutual

/-- Modelled from the spec: `copyObject` produces a structural deep copy
sharing nothing with its input.  Fresh identity tags are drawn from the
counter `c`; the result pairs the copy with the advanced counter. -/
def copyExpr : Nat → Expr → Expr × Nat
  | c, .varE _ v a t => (.varE c v a t, c+1)
  | c, .constE _ v n t => (.constE c v n t, c+1)
  | c, .paramE _ p => (.paramE c p, c+1)
  | c, .subplanE _ p => (.subplanE c p, c+1)
  | c, .opE _ o f rt rs args =>
      let r := copyExprList (c+1) args
      (.opE c o f rt rs r.1, r.2)
  | c, .boolAnd _ args =>
      let r := copyExprList (c+1) args
      (.boolAnd c r.1, r.2)
  | c, .boolOr _ args =>
      let r := copyExprList (c+1) args
      (.boolOr c r.1, r.2)
  | c, .funcE _ fid rt args =>
      let r := copyExprList (c+1) args
      (.funcE c fid rt r.1, r.2)
  | c, .relabelE _ a rt =>
      let r := copyExpr (c+1) a
      (.relabelE c r.1 rt, r.2)

/-- Deep copy of a list of expressions (the `List` cells of a C `List` are
fresh as well; only the element copies matter here). -/
def copyExprList : Nat → List Expr → List Expr × Nat
  | c, [] => ([], c)
  | c, e :: es =>
      let r := copyExpr c e
      let r2 := copyExprList r.2 es
      (r.1 :: r2.1, r2.2)

end

mutual

/-- Erase all identity tags.  Two expressions are structurally equal in the
sense of the C `equal()` helper iff their `stripIds` images coincide. -/
def stripIds : Expr → Expr
  | .varE _ v a t => .varE 0 v a t
  | .constE _ v n t => .constE 0 v n t
  | .paramE _ p => .paramE 0 p
  | .subplanE _ p => .subplanE 0 p
  | .opE _ o f rt rs args => .opE 0 o f rt rs (stripIdsList args)
  | .boolAnd _ args => .boolAnd 0 (stripIdsList args)
  | .boolOr _ args => .boolOr 0 (stripIdsList args)
  | .funcE _ fid rt args => .funcE 0 fid rt (stripIdsList args)
  | .relabelE _ a rt => .relabelE 0 (stripIds a) rt

def stripIdsList : List Expr → List Expr
  | [] => []
  | e :: es => stripIds e :: stripIdsList es

end

mutual

/-- All identity tags occurring in an expression tree (the set of heap
addresses of its nodes). -/
def exprIds : Expr → List Nat
  | .varE i _ _ _ => [i]
  | .constE i _ _ _ => [i]
  | .paramE i _ => [i]
  | .subplanE i _ => [i]
  | .opE i _ _ _ _ args => i :: exprIdsList args
  | .boolAnd i args => i :: exprIdsList args
  | .boolOr i args => i :: exprIdsList args
  | .funcE i _ _ args => i :: exprIdsList args
  | .relabelE i a _ => i :: exprIds a

def exprIdsList : List Expr → List Nat
  | [] => []
  | e :: es => exprIds e ++ exprIdsList es

end

/-- Append a varno to the accumulator unless already present (the C list
builder adds each relid once, in first-occurrence order). -/
def addVarno (acc : List Nat) (v : Nat) : List Nat :=
  if v ∈ acc then acc else acc ++ [v]

mutual

/-- Modelled from the spec: `pull_varnos(expr)` collects the set of relids
(varnos) referenced by an expression, each one listed once, in
first-occurrence order.  `acc` is the accumulated list. -/
def pullVarnosAcc : List Nat → Expr → List Nat
  | acc, .varE _ v _ _ => addVarno acc v
  | acc, .constE _ _ _ _ => acc
  | acc, .paramE _ _ => acc
  | acc, .subplanE _ _ => acc
  | acc, .opE _ _ _ _ _ args => pullVarnosList acc args
  | acc, .boolAnd _ args => pullVarnosList acc args
  | acc, .boolOr _ args => pullVarnosList acc args
  | acc, .funcE _ _ _ args => pullVarnosList acc args
  | acc, .relabelE _ a _ => pullVarnosAcc acc a

def pullVarnosList : List Nat → List Expr → List Nat
  | acc, [] => acc
  | acc, e :: es => pullVarnosList (pullVarnosAcc acc e) es

end

/-- Modelled from the spec: `pull_varnos` starting from the empty set. -/
def pull_varnos (e : Expr) : List Nat := pullVarnosAcc [] e

/-- Walking a two-level list node collects the varnos of all sublists; this
is what `pull_varnos((Node *) indxqualorig)` does. -/
def pullVarnosLL (ll : List (List Expr)) : List Nat :=
  ll.foldl pullVarnosList []

/-- Modelled from the spec: `NumRelids(expr)` is the number of distinct
relids referenced, here for a two-level qual list. -/
def NumRelidsLL (ll : List (List Expr)) : Nat :=
  (pullVarnosLL ll).length

mutual

/-- Modelled from the spec: `contain_subplans` is true iff the clause
contains a SubPlan reference.  Param nodes (InitPlan references) do not
count. -/
def contain_subplans : Expr → Bool
  | .varE _ _ _ _ => false
  | .constE _ _ _ _ => false
  | .paramE _ _ => false
  | .subplanE _ _ => true
  | .opE _ _ _ _ _ args => containSubplansList args
  | .boolAnd _ args => containSubplansList args
  | .boolOr _ args => containSubplansList args
  | .funcE _ _ _ args => containSubplansList args
  | .relabelE _ a _ => contain_subplans a

def containSubplansList : List Expr → Bool
  | [] => false
  | e :: es => contain_subplans e || containSubplansList es

end

mutual

/-- Modelled from the spec: the structural-equality helper `equal()`.
Identity tags (heap addresses) are not node fields and are ignored. -/
def exprEqual : Expr → Expr → Bool
  | .varE _ v a t, .varE _ v2 a2 t2 => v == v2 && a == a2 && t == t2
  | .constE _ v n t, .constE _ v2 n2 t2 => v == v2 && n == n2 && t == t2
  | .paramE _ p, .paramE _ p2 => p == p2
  | .subplanE _ p, .subplanE _ p2 => p == p2
  | .opE _ o f rt rs args, .opE _ o2 f2 rt2 rs2 args2 =>
      o == o2 && f == f2 && rt == rt2 && rs == rs2 && exprEqualList args args2
  | .boolAnd _ args, .boolAnd _ args2 => exprEqualList args args2
  | .boolOr _ args, .boolOr _ args2 => exprEqualList args args2
  | .funcE _ fid rt args, .funcE _ fid2 rt2 args2 =>
      fid == fid2 && rt == rt2 && exprEqualList args args2
  | .relabelE _ a rt, .relabelE _ a2 rt2 => exprEqual a a2 && rt == rt2
  | _, _ => false

def exprEqualList : List Expr → List Expr → Bool
  | [], [] => true
  | e :: es, e2 :: es2 => exprEqual e e2 && exprEqualList es es2
  | _, _ => false

end

/-- Modelled from the spec: `exprType` returns the result type of an
expression (each node stores its type). -/
def exprType : Expr → Nat
  | .varE _ _ _ t => t
  | .constE _ _ _ t => t
  | .paramE _ _ => 0
  | .subplanE _ _ => 0
  | .opE _ _ _ rt _ _ => rt
  | .boolAnd _ _ => 16
  | .boolOr _ _ => 16
  | .funcE _ _ rt _ => rt
  | .relabelE _ _ rt => rt

/-- Modelled from the spec: `set_difference` over clause lists removes the
members of `l2` from `l1` by pointer identity, not structural equality;
callers rely on this. -/
def set_difference (l1 l2 : List Expr) : List Expr :=
  l1.filter fun x => !(l2.any fun y => y.eid == x.eid)

/-- Modelled from the spec: subset test on relid lists. -/
def is_subseti (l1 l2 : List Nat) : Bool :=
  l1.all fun x => l2.contains x

/-- Modelled from the spec: `get_leftop` returns the first argument of a
binary operator clause. -/
def get_leftop : Expr → Expr
  | .opE _ _ _ _ _ (a :: _) => a
  | e => e

/-- Modelled from the spec: `get_rightop` returns the second argument of a
binary operator clause. -/
def get_rightop : Expr → Expr
  | .opE _ _ _ _ _ (_ :: b :: _) => b
  | e => e

/-- RestrictInfo: a predicate wrapper carrying the relids referenced by
each side of a binary clause. -/
structure RestrictInfo where
  clause : Expr
  left_relids : List Nat
  right_relids : List Nat

/-- Modelled from the spec: strip RestrictInfo wrappers, yielding the bare
clause expressions (the very same nodes, not copies). -/
def get_actual_clauses (l : List RestrictInfo) : List Expr :=
  l.map RestrictInfo.clause

/-- Catalog lookups, cost models and configuration consumed as black boxes:
`op_requires_recheck` is the pg_amop lossiness flag for an operator and
operator class; `get_commutator` is the commutator-operator lookup used by
`CommuteClause`; `cost_sort` maps (input total cost, rows, width) to the
(startup, total) cost of a Sort; `cost_qual_eval` maps a qual list to its
(startup, per-tuple) evaluation cost; `cpu_tuple_cost` is a configuration
constant. -/
structure Catalog where
  op_requires_recheck : Nat → Nat → Bool
  get_commutator : Nat → Nat
  cost_sort : Rat → Rat → Int → Rat × Rat
  cost_qual_eval : List Expr → Rat × Rat
  cpu_tuple_cost : Rat

/-- Modelled from the spec: `CommuteClause` replaces the operator of a
binary operator clause by its commutator, resets the `opfuncid` cache to
InvalidOid (0), and swaps the two arguments, in place (the node identity is
unchanged and the argument subtrees are shared, not copied). -/
def CommuteClause (cat : Catalog) : Expr → Expr
  | .opE i opno _ rt rs [a, b] => .opE i (cat.get_commutator opno) 0 rt rs [b, a]
  | e => e

/-- Modelled from the spec: `makeVar` builds a fresh Var node (typmod and
varlevelsup are not tracked). -/
def makeVar (c : Nat) (varno : Nat) (varattno : Int) (vartype : Nat) : Expr × Nat :=
  (.varE c varno varattno vartype, c+1)

/-- Modelled from the spec: `make_ands_explicit` turns an implicitly ANDed
qual sublist into one AND expression node. -/
def make_ands_explicit (c : Nat) (l : List Expr) : Expr × Nat :=
  (.boolAnd c l, c+1)

/-- Modelled from the spec: `make_orclause` builds the OR node over the
explicit AND conjunctions. -/
def make_orclause (c : Nat) (l : List Expr) : Expr × Nat :=
  (.boolOr c l, c+1)

/-- Per-index catalog data used by the index-qual rewriter.  `indexkeys`
is the list of table attribute numbers forming the index key (so `nkeys`
is its length), `classlist` the operator class per key position, and
`indproc` is non-zero exactly for a functional index. -/
structure IndexOptInfo where
  indexoid : Nat
  indexkeys : List Int
  classlist : List Nat
  indproc : Nat

/-- Resdom: target-list item metadata.  `reskey`/`reskeyop` carry sort-key
number and sort operator (0 = none); `resjunk` marks working columns. -/
structure Resdom where
  resno : Nat
  restype : Nat
  reskey : Nat
  reskeyop : Nat
  resjunk : Bool

/-- A target list entry: Resdom metadata plus the computed expression. -/
structure TargetEntry where
  resdom : Resdom
  expr : Expr

/-- One member of a pathkey equivalence class: a key expression and the
sort operator that orders it. -/
structure PathKeyItem where
  key : Expr
  sortop : Nat

/-- Query context: only the `hasSubLinks` flag is consulted here. -/
structure Query where
  hasSubLinks : Bool

/-- The four cost/size fields of the common Plan header. -/
structure PlanCost where
  startup_cost : Rat
  total_cost : Rat
  plan_rows : Rat
  plan_width : Int

/-- A LIMIT bound expression: either a Const (int32 payload plus null
flag) or some non-constant expression. -/
inductive LimitNode where
  | constNode (value : Int) (constisnull : Bool)
  | otherNode

/-- Plan nodes.  Every constructor carries the common header fields
(cost/size, target list) plus its variant fields, mirroring the C structs. -/
inductive Plan where
  | seqScan (cost : PlanCost) (targetlist : List TargetEntry) (qual : List Expr)
      (scanrelid : Nat)
  | indexScan (cost : PlanCost) (targetlist : List TargetEntry) (qual : List Expr)
      (scanrelid : Nat) (indxid : List Nat)
      (indxqual indxqualorig : List (List Expr)) (indxorderdir : Int)
  | nestLoop (cost : PlanCost) (targetlist : List TargetEntry) (qual : List Expr)
      (jointype : Nat) (joinqual : List Expr) (lefttree righttree : Plan)
  | mergeJoin (cost : PlanCost) (targetlist : List TargetEntry) (qual : List Expr)
      (jointype : Nat) (joinqual : List Expr) (mergeclauses : List Expr)
      (lefttree righttree : Plan)
  | hashJoin (cost : PlanCost) (targetlist : List TargetEntry) (qual : List Expr)
      (jointype : Nat) (joinqual : List Expr) (hashclauses : List Expr)
      (lefttree righttree : Plan)
  | hashPlan (cost : PlanCost) (targetlist : List TargetEntry)
      (hashkeys : List Expr) (lefttree : Plan)
  | appendPlan (cost : PlanCost) (targetlist : List TargetEntry)
      (appendplans : List Plan) (isTarget : Bool)
  | sortPlan (cost : PlanCost) (targetlist : List TargetEntry)
      (keycount : Nat) (lefttree : Plan)
  | resultPlan (cost : PlanCost) (targetlist : List TargetEntry)
      (resconstantqual : Option (List Expr)) (lefttree : Option Plan)
  | limitPlan (cost : PlanCost) (targetlist : List TargetEntry)
      (limitOffset limitCount : Option LimitNode) (lefttree : Plan)
  | material (cost : PlanCost) (targetlist : List TargetEntry) (lefttree : Plan)

instance : Inhabited Plan := ⟨.seqScan ⟨0, 0, 0, 0⟩ [] [] 0⟩

/-- Common header accessor: the cost/size fields. -/
def Plan.cost : Plan → PlanCost
  | .seqScan c _ _ _ => c
  | .indexScan c _ _ _ _ _ _ _ => c
  | .nestLoop c _ _ _ _ _ _ => c
  | .mergeJoin c _ _ _ _ _ _ _ => c
  | .hashJoin c _ _ _ _ _ _ _ => c
  | .hashPlan c _ _ _ => c
  | .appendPlan c _ _ _ => c
  | .sortPlan c _ _ _ => c
  | .resultPlan c _ _ _ => c
  | .limitPlan c _ _ _ _ => c
  | .material c _ _ => c

/-- Common header accessor: the target list. -/
def Plan.targetlist : Plan → List TargetEntry
  | .seqScan _ t _ _ => t
  | .indexScan _ t _ _ _ _ _ _ => t
  | .nestLoop _ t _ _ _ _ _ => t
  | .mergeJoin _ t _ _ _ _ _ _ => t
  | .hashJoin _ t _ _ _ _ _ _ => t
  | .hashPlan _ t _ _ => t
  | .appendPlan _ t _ _ => t
  | .sortPlan _ t _ _ => t
  | .resultPlan _ t _ _ => t
  | .limitPlan _ t _ _ _ => t
  | .material _ t _ => t

/-- Common header accessor: the qpqual list. -/
def Plan.qual : Plan → List Expr
  | .seqScan _ _ q _ => q
  | .indexScan _ _ q _ _ _ _ _ => q
  | .nestLoop _ _ q _ _ _ _ => q
  | .mergeJoin _ _ q _ _ _ _ _ => q
  | .hashJoin _ _ q _ _ _ _ _ => q
  | _ => []

/-- Replace the cost/size fields (the C callers assign them after the
builder returns). -/
def Plan.withCost (p : Plan) (c : PlanCost) : Plan :=
  match p with
  | .seqScan _ t q r => .seqScan c t q r
  | .indexScan _ t q r ii iq iqo d => .indexScan c t q r ii iq iqo d
  | .nestLoop _ t q j jq l r => .nestLoop c t q j jq l r
  | .mergeJoin _ t q j jq mc l r => .mergeJoin c t q j jq mc l r
  | .hashJoin _ t q j jq hc l r => .hashJoin c t q j jq hc l r
  | .hashPlan _ t k l => .hashPlan c t k l
  | .appendPlan _ t a b => .appendPlan c t a b
  | .sortPlan _ t k l => .sortPlan c t k l
  | .resultPlan _ t rq l => .resultPlan c t rq l
  | .limitPlan _ t o ct l => .limitPlan c t o ct l
  | .material _ t l => .material c t l

/-- Replace the target list (the sort synthesizer assigns the child's
target list after inserting resjunk entries). -/
def Plan.withTargetlist (p : Plan) (t : List TargetEntry) : Plan :=
  match p with
  | .seqScan c _ q r => .seqScan c t q r
  | .indexScan c _ q r ii iq iqo d => .indexScan c t q r ii iq iqo d
  | .nestLoop c _ q j jq l r => .nestLoop c t q j jq l r
  | .mergeJoin c _ q j jq mc l r => .mergeJoin c t q j jq mc l r
  | .hashJoin c _ q j jq hc l r => .hashJoin c t q j jq hc l r
  | .hashPlan c _ k l => .hashPlan c t k l
  | .appendPlan c _ a b => .appendPlan c t a b
  | .sortPlan c _ k l => .sortPlan c t k l
  | .resultPlan c _ rq l => .resultPlan c t rq l
  | .limitPlan c _ o ct l => .limitPlan c t o ct l
  | .material c _ l => .material c t l

/-- The `IsA(node, Append)` test. -/
def Plan.isAppend : Plan → Bool
  | .appendPlan _ _ _ _ => true
  | _ => false

/-- Join-qual accessor (empty for non-join nodes). -/
def Plan.joinqualOf : Plan → List Expr
  | .nestLoop _ _ _ _ jq _ _ => jq
  | .mergeJoin _ _ _ _ jq _ _ _ => jq
  | .hashJoin _ _ _ _ jq _ _ _ => jq
  | _ => []

/-- Merge-clause accessor (empty for non-MergeJoin nodes). -/
def Plan.mergeclausesOf : Plan → List Expr
  | .mergeJoin _ _ _ _ _ mc _ _ => mc
  | _ => []

/-- Hash-clause accessor (empty for non-HashJoin nodes). -/
def Plan.hashclausesOf : Plan → List Expr
  | .hashJoin _ _ _ _ _ hc _ _ => hc
  | _ => []

/-- Sort keycount accessor (0 for non-Sort nodes). -/
def Plan.keycountOf : Plan → Nat
  | .sortPlan _ _ k _ => k
  | _ => 0

/-!  Translations of the source functions of `createplan.c`. -/

/-- Translation of `order_qual_clauses` (createplan.c:1087).  Subselect-free
queries return the list unchanged; otherwise the single pass that appends
each clause to one of two lists and concatenates them is exactly a stable
partition with SubPlan-bearing clauses last. -/
def order_qual_clauses (root : Query) (clauses : List Expr) : List Expr :=
  if !root.hasSubLinks then clauses
  else
    clauses.filter (fun cl => !contain_subplans cl) ++ clauses.filter contain_subplans

/-- Translation of `copy_plan_costsize` (createplan.c:1141). -/
def copy_plan_costsize : Option Plan → PlanCost
  | some src => src.cost
  | none => ⟨0, 0, 0, 0⟩

/-- Translation of `fix_indxqual_operand` (createplan.c:970).  Strips one
binary-compatible relabel, renumbers a Var on the base relation to its
1-based index-key position (a fresh copy; `elog` if the Var is not an index
key), and replaces a functional-index expression by `Var(baserelid, 1,
exprType(node))`.  Returns the new operand, the operator class of the key
position, and the advanced allocation counter. -/
def fix_indxqual_operand (c : Nat) (node : Expr) (baserelid : Nat)
    (index : IndexOptInfo) : Option ((Expr × Nat) × Nat) :=
  let node0 := match node with
    | .relabelE _ arg _ => arg
    | n => n
  match node0 with
  | .varE _ varno varattno vartype =>
      if varno = baserelid then
        match index.indexkeys.findIdx? (fun k => k = varattno) with
        | some pos =>
            -- newnode = copyObject(node) with varattno overwritten to pos+1
            some ((.varE c varno ((pos : Int) + 1) vartype,
                   index.classlist.getD pos 0), c + 1)
        | none => none
      else none
  | other =>
      -- functional-index case: classlist[0] is the only class
      some ((.varE c baserelid 1 (exprType other),
             index.classlist.getD 0 0), c + 1)

/-- Translation of `fix_indxqual_sublist` (createplan.c:909).  Each clause
must be a binary operator clause; it is deep-copied, commuted if its left
operand does not reference exactly the base relation, its left operand is
rewritten by `fix_indxqual_operand`, and, if the (possibly commuted)
operator is lossy for the key operator class, a fresh deep copy of the
original clause is appended to the recheck list. -/
def fix_indxqual_sublist (cat : Catalog) (c : Nat) (indexqual : List Expr)
    (baserelid : Nat) (index : IndexOptInfo) :
    Option ((List Expr × List Expr) × Nat) :=
  match indexqual with
  | [] => some (([], []), c)
  | clause :: rest =>
    match clause with
    | .opE _ opno opfuncid rt rs [a1, a2] =>
        -- newclause = copyObject(clause), unfolded to expose the copied args
        let r1 := copyExpr (c+1) a1
        let r2 := copyExpr r1.2 a2
        let newclause := Expr.opE c opno opfuncid rt rs [r1.1, r2.1]
        let leftvarnos := pull_varnos r1.1
        let newclause :=
          if leftvarnos.length ≠ 1 ∨ leftvarnos.headD 0 ≠ baserelid then
            CommuteClause cat newclause
          else newclause
        match newclause with
        | .opE ne nopno nopf nrt nrs [k1, k2] =>
            match fix_indxqual_operand r2.2 k1 baserelid index with
            | some ((fixedArg, opclass), c3) =>
                let fixedClause := Expr.opE ne nopno nopf nrt nrs [fixedArg, k2]
                if cat.op_requires_recheck nopno opclass then
                  let r4 := copyExpr c3 clause
                  match fix_indxqual_sublist cat r4.2 rest baserelid index with
                  | some ((fq, rq), c5) =>
                      some ((fixedClause :: fq, r4.1 :: rq), c5)
                  | none => none
                else
                  match fix_indxqual_sublist cat c3 rest baserelid index with
                  | some ((fq, rq), c5) => some ((fixedClause :: fq, rq), c5)
                  | none => none
            | none => none
        | _ => none
    | _ => none

/-- Translation of `fix_indxqual_references` (createplan.c:867).  One
`fix_indxqual_sublist` call per index scan, walking `indexinfo` in step
with the qual sublists; a recheck sublist is appended only when non-empty
(running past the end of `indexinfo` would dereference a null list cell
in C and is modelled as failure). -/
def fix_indxqual_references (cat : Catalog) (c : Nat)
    (indexquals : List (List Expr)) (baserelid : Nat)
    (ixinfo : List IndexOptInfo) :
    Option ((List (List Expr) × List (List Expr)) × Nat) :=
  match indexquals, ixinfo with
  | [], _ => some (([], []), c)
  | iq :: rest, ix :: ixrest =>
      match fix_indxqual_sublist cat c iq baserelid ix with
      | some ((fq, rq), c1) =>
          match fix_indxqual_references cat c1 rest baserelid ixrest with
          | some ((fqs, rqs), c2) =>
              some ((fq :: fqs, if rq.isEmpty then rqs else rq :: rqs), c2)
          | none => none
      | none => none
  | _ :: _, [] => none

/-- Translation of `get_switched_clauses` (createplan.c:1039).  A clause
whose right-side relids fall inside the outer relids is rebuilt as a fresh
OpExpr node (opfuncid reset to InvalidOid, argument list cells copied but
argument subtrees shared) and commuted in place; any other clause is passed
through as the original bare clause.  The input is never modified. -/
def get_switched_clauses (cat : Catalog) (c : Nat) (clauses : List RestrictInfo)
    (outerrelids : List Nat) : Option (List Expr × Nat) :=
  match clauses with
  | [] => some ([], c)
  | ri :: rest =>
      if is_subseti ri.right_relids outerrelids then
        match ri.clause with
        | .opE _ opno _ rt rs [a, b] =>
            let temp := Expr.opE c opno 0 rt rs [a, b]
            let temp := CommuteClause cat temp
            match get_switched_clauses cat (c+1) rest outerrelids with
            | some (ts, c2) => some (temp :: ts, c2)
            | none => none
        | _ => none
      else
        match get_switched_clauses cat c rest outerrelids with
        | some (ts, c2) => some (ri.clause :: ts, c2)
        | none => none

/-- Truncation toward zero: the semantics of the C `(int32)` cast applied
to a `double` (32-bit wraparound is not modelled). -/
def truncRat (q : Rat) : Int :=
  if 0 ≤ q then Int.floor q else Int.ceil q

/-- The `limitOffset` block of `make_limit` (createplan.c:1813): for a
non-null constant offset `o > 0`, clamp `o` to `plan_rows`, advance
`startup_cost` by the `o/plan_rows` fraction of the cost range, subtract
`o` from `plan_rows`, floor at 1. -/
def limit_offset_adjust (p : PlanCost) : Option LimitNode → PlanCost
  | some (.constNode v isnull) =>
      if isnull = false ∧ 0 < v then
        let offset : Int := if (v : Rat) > p.plan_rows then truncRat p.plan_rows else v
        let p1 :=
          if 0 < p.plan_rows then
            { p with startup_cost := p.startup_cost +
                (p.total_cost - p.startup_cost) * (offset : Rat) / p.plan_rows }
          else p
        let p2 := { p1 with plan_rows := p1.plan_rows - (offset : Rat) }
        if p2.plan_rows < 1 then { p2 with plan_rows := 1 } else p2
      else p
  | _ => p

/-- The `limitCount` block of `make_limit` (createplan.c:1831): for a
non-null constant count `c ≥ 0`, clamp `c` to `plan_rows`, shrink
`total_cost` proportionally, set `plan_rows` to `c`, floor at 1. -/
def limit_count_adjust (p : PlanCost) : Option LimitNode → PlanCost
  | some (.constNode v isnull) =>
      if isnull = false ∧ 0 ≤ v then
        let count : Int := if (v : Rat) > p.plan_rows then truncRat p.plan_rows else v
        let p1 :=
          if 0 < p.plan_rows then
            { p with total_cost := p.startup_cost +
                (p.total_cost - p.startup_cost) * (count : Rat) / p.plan_rows }
          else p
        let p2 := { p1 with plan_rows := (count : Rat) }
        if p2.plan_rows < 1 then { p2 with plan_rows := 1 } else p2
      else p
  | _ => p

/-- Translation of `make_limit` (createplan.c:1798): copy the child's
cost/size, then apply the offset and count adjustments in order. -/
def make_limit (tlist : List TargetEntry) (lefttree : Plan)
    (limitOffset limitCount : Option LimitNode) : Plan :=
  let p := copy_plan_costsize (some lefttree)
  let p := limit_offset_adjust p limitOffset
  let p := limit_count_adjust p limitCount
  Plan.limitPlan p tlist limitOffset limitCount lefttree

/-- Loop body of the cost computation in `make_append` (createplan.c:1285);
the Bool flag is true exactly on the first iteration (the C code compares
the loop cell against the list head). -/
def append_cost_step (acc : PlanCost × Bool) (subplan : Plan) : PlanCost × Bool :=
  let c := acc.1
  let c := if acc.2 then { c with startup_cost := subplan.cost.startup_cost } else c
  ({ startup_cost := c.startup_cost
     total_cost := c.total_cost + subplan.cost.total_cost
     plan_rows := c.plan_rows + subplan.cost.plan_rows
     plan_width := if c.plan_width < subplan.cost.plan_width then
         subplan.cost.plan_width else c.plan_width }, false)

/-- Translation of `make_append` (createplan.c:1273): zero-initialized
aggregate costs folded over the children. -/
def make_append (appendplans : List Plan) (isTarget : Bool)
    (tlist : List TargetEntry) : Plan :=
  let r := appendplans.foldl append_cost_step (⟨0, 0, 0, 0⟩, true)
  Plan.appendPlan r.1 tlist appendplans isTarget

/-- Translation of `make_seqscan` (createplan.c:1170); cost inserted by
the caller. -/
def make_seqscan (qptlist : List TargetEntry) (qpqual : List Expr)
    (scanrelid : Nat) : Plan :=
  Plan.seqScan ⟨0, 0, 0, 0⟩ qptlist qpqual scanrelid

/-- Translation of `make_indexscan` (createplan.c:1188); cost inserted by
the caller. -/
def make_indexscan (qptlist : List TargetEntry) (qpqual : List Expr)
    (scanrelid : Nat) (indxid : List Nat)
    (indxqual indxqualorig : List (List Expr)) (indexscandir : Int) : Plan :=
  Plan.indexScan ⟨0, 0, 0, 0⟩ qptlist qpqual scanrelid indxid
    indxqual indxqualorig indexscandir

/-- Translation of `make_nestloop` (createplan.c:1306): `qual` receives the
other clauses, `joinqual` the join clauses; cost inserted by the caller. -/
def make_nestloop (tlist : List TargetEntry)
    (joinclauses otherclauses : List Expr)
    (lefttree righttree : Plan) (jointype : Nat) : Plan :=
  Plan.nestLoop ⟨0, 0, 0, 0⟩ tlist otherclauses jointype joinclauses
    lefttree righttree

/-- Translation of `make_hashjoin` (createplan.c:1328); cost inserted by
the caller. -/
def make_hashjoin (tlist : List TargetEntry)
    (joinclauses otherclauses hashclauses : List Expr)
    (lefttree righttree : Plan) (jointype : Nat) : Plan :=
  Plan.hashJoin ⟨0, 0, 0, 0⟩ tlist otherclauses jointype joinclauses
    hashclauses lefttree righttree

/-- Translation of `make_hash` (createplan.c:1352): costs copied from the
input plan with `startup_cost` raised to the total cost (EXPLAIN cosmetics
only). -/
def make_hash (tlist : List TargetEntry) (hashkeys : List Expr)
    (lefttree : Plan) : Plan :=
  let c := copy_plan_costsize (some lefttree)
  let c := { c with startup_cost := c.total_cost }
  Plan.hashPlan c tlist hashkeys lefttree

/-- Translation of `make_mergejoin` (createplan.c:1374); cost inserted by
the caller. -/
def make_mergejoin (tlist : List TargetEntry)
    (joinclauses otherclauses mergeclauses : List Expr)
    (lefttree righttree : Plan) (jointype : Nat) : Plan :=
  Plan.mergeJoin ⟨0, 0, 0, 0⟩ tlist otherclauses jointype joinclauses
    mergeclauses lefttree righttree

/-- Translation of `make_sort` (createplan.c:1404): size copied from the
child, costs from the sort cost model applied to the child's total cost,
rows and width. -/
def make_sort (root : Query) (cat : Catalog) (tlist : List TargetEntry)
    (lefttree : Plan) (keycount : Nat) : Plan :=
  let c0 := copy_plan_costsize (some lefttree)
  let sc := cat.cost_sort lefttree.cost.total_cost lefttree.cost.plan_rows
      lefttree.cost.plan_width
  Plan.sortPlan { c0 with startup_cost := sc.1, total_cost := sc.2 }
    tlist keycount lefttree

/-- Translation of `make_result` (createplan.c:1861): cost copied from the
subplan when present, else one tuple at `cpu_tuple_cost`; a constant qual
adds its one-time evaluation cost to both startup and total. -/
def make_result (cat : Catalog) (tlist : List TargetEntry)
    (resconstantqual : Option (List Expr)) (subplan : Option Plan) : Plan :=
  let c := match subplan with
    | some sp => copy_plan_costsize (some sp)
    | none => ⟨0, cat.cpu_tuple_cost, 1, 0⟩
  let c := match resconstantqual with
    | some q =>
        let qc := cat.cost_qual_eval q
        { c with startup_cost := c.startup_cost + qc.1 + qc.2,
                 total_cost := c.total_cost + qc.1 + qc.2 }
    | none => c
  Plan.resultPlan c tlist resconstantqual subplan

/-- Modelled from the spec: `new_unsorted_tlist` builds a fresh copy of a
target list with all sort-key marks cleared. -/
def new_unsorted_tlist (tl : List TargetEntry) : List TargetEntry :=
  tl.map fun te => { te with resdom := { te.resdom with reskey := 0, reskeyop := 0 } }

/-- Modelled from the spec: `tlist_member` finds the first target-list
entry whose expression is structurally equal to the key, here returned as
its position. -/
def tlist_member (key : Expr) : List TargetEntry → Option Nat
  | [] => none
  | te :: rest =>
      if exprEqual te.expr key then some 0
      else (tlist_member key rest).map (· + 1)

/-- Working state of `make_sort_from_pathkeys`: the (possibly rebuilt)
child plan, the local `tlist` variable tracking the child's target list,
the sort node's target list, and the running sort-key count. -/
structure SortState where
  lefttree : Plan
  tlist : List TargetEntry
  sort_tlist : List TargetEntry
  numsortkeys : Nat

/-- The common tail of the pathkey loop (createplan.c:1538): if the chosen
entry is not yet a sort key, mark it with the next key number and the
item's sort operator; a redundant pathkey (entry already marked) is
ignored. -/
def assignSortKey (st : SortState) (idx : Nat) (pk : PathKeyItem) : SortState :=
  match st.sort_tlist.get? idx with
  | none => st
  | some te =>
      if te.resdom.reskey = 0 then
        { st with
          sort_tlist := st.sort_tlist.set idx
            { te with resdom := { te.resdom with
                reskey := st.numsortkeys + 1, reskeyop := pk.sortop } },
          numsortkeys := st.numsortkeys + 1 }
      else st

/-- First loop of the pathkey body (createplan.c:1475): the first item of
the sublist whose key matches an available target-list entry, with the
entry's position. -/
def findMemberItem (keysublist : List PathKeyItem)
    (stl : List TargetEntry) : Option (PathKeyItem × Nat) :=
  match keysublist with
  | [] => none
  | pk :: rest =>
      match tlist_member pk.key stl with
      | some idx => some (pk, idx)
      | none => findMemberItem rest stl

/-- Body of the pathkey loop of `make_sort_from_pathkeys`
(createplan.c:1456).  Prefer an item already present in the sort target
list; otherwise take the first item computable from the input relids
(`elog` if none), wrap a non-projecting (Append) child in a Result node,
and append matching resjunk entries to the child's and the sort's target
lists; finally run the sort-key marking tail. -/
def processPathkey (cat : Catalog) (relids : List Nat) (st : SortState)
    (keysublist : List PathKeyItem) : Option SortState :=
  match findMemberItem keysublist st.sort_tlist with
  | some (pk, idx) => some (assignSortKey st idx pk)
  | none =>
      match keysublist.find? (fun pk => is_subseti (pull_varnos pk.key) relids) with
      | none => none
      | some pk =>
          let st1 :=
            if st.lefttree.isAppend then
              let tl := new_unsorted_tlist st.tlist
              { st with
                tlist := tl
                lefttree := make_result cat tl none (some st.lefttree) }
            else st
          let rd1 : Resdom := ⟨st1.tlist.length + 1, exprType pk.key, 0, 0, true⟩
          let tl2 := st1.tlist ++ [⟨rd1, pk.key⟩]
          let st2 :=
            { st1 with
              tlist := tl2
              lefttree := st1.lefttree.withTargetlist tl2 }
          let rd2 : Resdom := ⟨st2.sort_tlist.length + 1, exprType pk.key, 0, 0, true⟩
          let st3 := { st2 with sort_tlist := st2.sort_tlist ++ [⟨rd2, pk.key⟩] }
          some (assignSortKey st3 (st3.sort_tlist.length - 1) pk)

/-- The pathkey loop of `make_sort_from_pathkeys`. -/
def processPathkeys (cat : Catalog) (relids : List Nat)
    (pathkeys : List (List PathKeyItem)) (st : SortState) : Option SortState :=
  match pathkeys with
  | [] => some st
  | ks :: rest =>
      match processPathkey cat relids st ks with
      | some st2 => processPathkeys cat relids rest st2
      | none => none

/-- Translation of `make_sort_from_pathkeys` (createplan.c:1444): run the
pathkey loop from a cleared copy of the child's target list, then build
the Sort node with `keycount` equal to the number of assignments made. -/
def make_sort_from_pathkeys (root : Query) (cat : Catalog) (lefttree : Plan)
    (relids : List Nat) (pathkeys : List (List PathKeyItem)) : Option Plan :=
  match processPathkeys cat relids pathkeys
      ⟨lefttree, lefttree.targetlist, new_unsorted_tlist lefttree.targetlist, 0⟩ with
  | some st => some (make_sort root cat st.sort_tlist st.lefttree st.numsortkeys)
  | none => none

/-- RelOptInfo fields consulted by the scan constructors. -/
structure RelOptInfo where
  relids : List Nat
  rows : Rat
  width : Int

/-- IndexPath fields consulted by `create_indexscan_plan`. -/
structure IndexPath where
  parent : RelOptInfo
  startup_cost : Rat
  total_cost : Rat
  indexinfo : List IndexOptInfo
  indexqual : List (List Expr)
  indexscandir : Int
  rows : Rat

/-- The or-expression construction of `create_indexscan_plan`
(createplan.c:501): one explicit AND per sublist, OR'ed together. -/
def build_or_expr (c : Nat) (indxqual : List (List Expr)) : Expr × Nat :=
  let r := indxqual.foldl
    (fun (acc : List Expr × Nat) sub =>
      let e := make_ands_explicit acc.2 sub
      (acc.1 ++ [e.1], e.2))
    ([], c)
  make_orclause r.2 r.1

/-- Translation of `create_indexscan_plan` (createplan.c:449).  The qpqual
is the scan clauses minus (by pointer identity) the or-expression (several
sublists), the first sublist (one sublist), or nothing (no sublist); if the
rewriter reported lossy operators, a deep copy of the or-expression, or the
already-copied recheck clauses, are appended back.  Costs are copied from
the path with the indexscan-specific row estimate. -/
def create_indexscan_plan (cat : Catalog) (c : Nat) (best_path : IndexPath)
    (tlist : List TargetEntry) (scan_clauses : List Expr) :
    Option (Plan × Nat) :=
  let indxqual := best_path.indexqual
  let baserelid := best_path.parent.relids.headD 0
  let indexids := best_path.indexinfo.map IndexOptInfo.indexoid
  let (orOpt, qpqual0, c1) :
      Option Expr × List Expr × Nat :=
    if indxqual.length > 1 then
      let r := build_or_expr c indxqual
      (some r.1, set_difference scan_clauses [r.1], r.2)
    else if indxqual.isEmpty then
      (none, scan_clauses, c)
    else
      (none, set_difference scan_clauses (indxqual.headD []), c)
  match fix_indxqual_references cat c1 indxqual baserelid best_path.indexinfo with
  | none => none
  | some ((fixed, recheck), c2) =>
      let inj : List Expr × Nat :=
        if recheck.isEmpty then (qpqual0, c2)
        else
          match orOpt with
          | some oe =>
              let r := copyExpr c2 oe
              (qpqual0 ++ [r.1], r.2)
          | none => (qpqual0 ++ recheck.headD [], c2)
      let scan_plan := make_indexscan tlist inj.1 baserelid indexids fixed
          indxqual best_path.indexscandir
      -- copy_path_costsize, then plan_rows overridden by the per-indexscan
      -- row estimate
      some (scan_plan.withCost
        ⟨best_path.startup_cost, best_path.total_cost, best_path.rows,
         best_path.parent.width⟩, inj.2)

/-- NestPath fields consulted by `create_nestloop_plan`. -/
structure NestPath where
  jointype : Nat
  startup_cost : Rat
  total_cost : Rat
  parent_rows : Rat
  parent_width : Int

/-- Translation of `create_nestloop_plan` (createplan.c:656).  When the
inner plan is an IndexScan with a single `indxqualorig` sublist that
references more than one relation, those clauses are removed (by pointer
identity) from the join clauses; multi-scan inners are left untouched. -/
def create_nestloop_plan (root : Query) (best_path : NestPath)
    (tlist : List TargetEntry) (joinclauses otherclauses : List Expr)
    (outer_plan inner_plan : Plan) : Plan :=
  let joinclauses :=
    match inner_plan with
    | .indexScan _ _ _ _ _ _ indxqualorig _ =>
        if indxqualorig.length = 1 then
          if NumRelidsLL indxqualorig > 1 then
            set_difference joinclauses (indxqualorig.headD [])
          else joinclauses
        else joinclauses
    | _ => joinclauses
  (make_nestloop tlist joinclauses otherclauses outer_plan inner_plan
      best_path.jointype).withCost
    ⟨best_path.startup_cost, best_path.total_cost, best_path.parent_rows,
     best_path.parent_width⟩

/-- MergePath fields consulted by `create_mergejoin_plan`; the outer and
inner sub-paths are represented by their parent relid sets. -/
structure MergePath where
  jointype : Nat
  startup_cost : Rat
  total_cost : Rat
  parent_rows : Rat
  parent_width : Int
  path_mergeclauses : List RestrictInfo
  outersortkeys : List (List PathKeyItem)
  innersortkeys : List (List PathKeyItem)
  outer_relids : List Nat
  inner_relids : List Nat

/-- Translation of `create_mergejoin_plan` (createplan.c:706): remove the
bare mergeclauses from the join quals, re-derive the mergeclauses with the
outer side on the left, insert requested Sort nodes, build the node. -/
def create_mergejoin_plan (root : Query) (cat : Catalog) (c : Nat)
    (best_path : MergePath) (tlist : List TargetEntry)
    (joinclauses otherclauses : List Expr)
    (outer_plan inner_plan : Plan) : Option (Plan × Nat) :=
  let mc0 := get_actual_clauses best_path.path_mergeclauses
  let joinclauses := set_difference joinclauses mc0
  match get_switched_clauses cat c best_path.path_mergeclauses
      best_path.outer_relids with
  | none => none
  | some (mergeclauses, c1) =>
      let outerOpt :=
        if best_path.outersortkeys.isEmpty then some outer_plan
        else make_sort_from_pathkeys root cat outer_plan
            best_path.outer_relids best_path.outersortkeys
      match outerOpt with
      | none => none
      | some outer_plan2 =>
          let innerOpt :=
            if best_path.innersortkeys.isEmpty then some inner_plan
            else make_sort_from_pathkeys root cat inner_plan
                best_path.inner_relids best_path.innersortkeys
          match innerOpt with
          | none => none
          | some inner_plan2 =>
              some ((make_mergejoin tlist joinclauses otherclauses
                  mergeclauses outer_plan2 inner_plan2
                  best_path.jointype).withCost
                ⟨best_path.startup_cost, best_path.total_cost,
                 best_path.parent_rows, best_path.parent_width⟩, c1)

/-- HashPath fields consulted by `create_hashjoin_plan`. -/
structure HashPath where
  jointype : Nat
  startup_cost : Rat
  total_cost : Rat
  parent_rows : Rat
  parent_width : Int
  path_hashclauses : List RestrictInfo
  outer_relids : List Nat

/-- Translation of `create_hashjoin_plan` (createplan.c:766): remove the
bare hashclauses from the join quals, commute so the outer side is on the
left, extract the right-hand operands as inner hash keys, wrap the inner
plan in a Hash node, build the node. -/
def create_hashjoin_plan (root : Query) (cat : Catalog) (c : Nat)
    (best_path : HashPath) (tlist : List TargetEntry)
    (joinclauses otherclauses : List Expr)
    (outer_plan inner_plan : Plan) : Option (Plan × Nat) :=
  let hc0 := get_actual_clauses best_path.path_hashclauses
  let joinclauses := set_difference joinclauses hc0
  match get_switched_clauses cat c best_path.path_hashclauses
      best_path.outer_relids with
  | none => none
  | some (hashclauses, c1) =>
      let innerhashkeys := hashclauses.map get_rightop
      let hash_plan := make_hash inner_plan.targetlist innerhashkeys inner_plan
      some ((make_hashjoin tlist joinclauses otherclauses hashclauses
          outer_plan hash_plan best_path.jointype).withCost
        ⟨best_path.startup_cost, best_path.total_cost,
         best_path.parent_rows, best_path.parent_width⟩, c1)

/-- The operator class that `fix_indxqual_operand` would report for an
operand, computed on the original expression (identity tags are
irrelevant): strip one relabel; a Var on the base relation maps to the
class of its key position, any other expression to `classlist[0]`; `none`
is the error case. -/
def operandOpclass (baserelid : Nat) (index : IndexOptInfo) (node : Expr) :
    Option Nat :=
  let node0 := match node with
    | .relabelE _ arg _ => arg
    | n => n
  match node0 with
  | .varE _ varno varattno _ =>
      if varno = baserelid then
        match index.indexkeys.findIdx? (fun k => k = varattno) with
        | some pos => some (index.classlist.getD pos 0)
        | none => none
      else none
  | _ => some (index.classlist.getD 0 0)

/-- Whether the rewriter finds an index-qual clause lossy: the operator
after the commute decision (taken on the original left operand) is lossy
for the operator class of the index-key operand.  Clauses on which the
rewriter would fail count as not lossy. -/
def clauseRewrittenLossy (cat : Catalog) (baserelid : Nat)
    (index : IndexOptInfo) (clause : Expr) : Bool :=
  match clause with
  | .opE _ opno _ _ _ [a1, a2] =>
      let lv := pull_varnos a1
      let comm : Bool := lv.length ≠ 1 ∨ lv.headD 0 ≠ baserelid
      let opno2 := if comm then cat.get_commutator opno else opno
      let karg := if comm then a2 else a1
      match operandOpclass baserelid index karg with
      | some opclass => cat.op_requires_recheck opno2 opclass
      | none => false
  | _ => false

/-- All sort operators occurring in a pathkey list. -/
def sortopsOf (pathkeys : List (List PathKeyItem)) : List Nat :=
  pathkeys.flatten.map PathKeyItem.sortop

/-- Two relid sets are disjoint. -/
def RelidsDisjoint (outer inner : List Nat) : Prop :=
  ∀ x, x ∈ outer → x ∈ inner → False

/-- A well-formed merge/hash RestrictInfo: a binary operator clause whose
cached side relids are the varnos of its arguments, each side non-empty and
lying entirely within one side of the join. -/
def RIOriented (outer inner : List Nat) (ri : RestrictInfo) : Prop :=
  ∃ eo opno opf rt rs a b, ri.clause = .opE eo opno opf rt rs [a, b] ∧
    ri.left_relids = pull_varnos a ∧ ri.right_relids = pull_varnos b ∧
    ri.left_relids ≠ [] ∧ ri.right_relids ≠ [] ∧
    ((is_subseti ri.left_relids outer = true ∧ is_subseti ri.right_relids inner = true) ∨
     (is_subseti ri.left_relids inner = true ∧ is_subseti ri.right_relids outer = true))

/-!  Concrete instances used by witnesses and counterexamples. -/

/-- A concrete catalog: operator 7 is lossy everywhere, commutators are
shifted by 50, cost models are simple arithmetic. -/
def cat0 : Catalog :=
  { op_requires_recheck := fun o _ => o == 7
    get_commutator := fun o => o + 50
    cost_sort := fun t r _ => (t + r, t + r + 1)
    cost_qual_eval := fun _ => (0, 0)
    cpu_tuple_cost := 1/100 }

/-- Concrete RestrictInfo whose right side lies in the outer relids (so it
gets commuted). -/
def ri1c : RestrictInfo :=
  ⟨.opE 100 5 77 16 false [.varE 101 2 1 25, .varE 102 1 1 25], [2], [1]⟩

/-- Concrete RestrictInfo already oriented with the outer side on the left
(so it passes through). -/
def ri2c : RestrictInfo :=
  ⟨.opE 103 6 0 16 false [.varE 104 1 1 25, .varE 105 2 1 25], [1], [2]⟩

/-- The switched-clause output for the concrete pair above. -/
def swOut : List Expr × Nat :=
  (get_switched_clauses cat0 20 [ri1c, ri2c] [1]).getD ([], 0)

/-- Concrete index-qual clause: lossy operator 7 over a Var of relation 1
(attribute 3) and a constant. -/
def cl9 : Expr :=
  .opE 50 7 9 16 false [.varE 51 1 3 25, .constE 52 42 false 23]

/-- Concrete index catalog data: one key on attribute 3, class 88. -/
def ix9 : IndexOptInfo := ⟨77, [3], [88], 0⟩

/-- Concrete index-qual clause: NON-lossy operator 3 over a Var of relation 1
(attribute 3) and a constant. -/
def cl8 : Expr :=
  .opE 60 3 0 16 false [.varE 61 1 3 25, .constE 62 5 false 23]

/-- The fixed index quals produced for the two-scan input
`[[cl8], [cl9]]` starting at counter 300. -/
def Fc7 : List (List Expr) :=
  [[.opE 300 3 0 16 false [.varE 303 1 1 25, .constE 302 5 false 23]],
   [.opE 304 7 9 16 false [.varE 307 1 1 25, .constE 306 42 false 23]]]

/-- The recheck quals produced for the two-scan input `[[cl8], [cl9]]`
starting at counter 300: one single sublist, the empty slot dropped. -/
def Rc7 : List (List Expr) :=
  [[.opE 308 7 9 16 false [.varE 309 1 3 25, .constE 310 42 false 23]]]

/-- Concrete index path: one base rel 1, a single indexqual sublist
`[cl9]` over index `ix9`. -/
def bp1 : IndexPath := ⟨⟨[1], 10, 4⟩, 1, 2, [ix9], [[cl9]], 1, 5⟩

/-- The IndexScan plan built for `bp1` from scan clauses `[cl9]` at
counter 200. -/
def P1c1 : Plan :=
  .indexScan ⟨1, 2, 5, 4⟩ []
    [.opE 204 7 9 16 false [.varE 205 1 3 25, .constE 206 42 false 23]]
    1 [77]
    [[.opE 200 7 9 16 false [.varE 203 1 1 25, .constE 202 42 false 23]]]
    [[cl9]] 1

/-- The sort-key numbers carried by the marked entries of a target list. -/
def keysOf (stl : List TargetEntry) : List Nat :=
  (stl.filter fun te => te.resdom.reskey ≠ 0).map fun te => te.resdom.reskey

/-- The running invariant of the pathkey loop: the key numbers of the
marked entries are a permutation of `1..numsortkeys`, and each marked
entry's sort operator comes from the given operator pool. -/
def SortInv (ops : List Nat) (st : SortState) : Prop :=
  (keysOf st.sort_tlist).Perm (List.range' 1 st.numsortkeys) ∧
  ∀ te ∈ st.sort_tlist, te.resdom.reskey ≠ 0 → te.resdom.reskeyop ∈ ops

/-- Concrete query context for the sort synthesizer witness. -/
def q6 : Query := ⟨false⟩

/-- Concrete target entry: attribute 1 of relation 1, no sort mark. -/
def te6 : TargetEntry := ⟨⟨1, 25, 0, 0, false⟩, .varE 300 1 1 25⟩

/-- Concrete child plan for the sort synthesizer witness. -/
def P6 : Plan := .seqScan ⟨0, 10, 2, 1⟩ [te6] [] 1

/-- Concrete pathkeys: a single equivalence class whose item matches the
child's only target entry, sort operator 93. -/
def pks6 : List (List PathKeyItem) := [[⟨.varE 301 1 1 25, 93⟩]]

/-- The Sort node built for `P6` and `pks6`. -/
def S6 : Plan :=
  .sortPlan ⟨12, 13, 2, 1⟩ [⟨⟨1, 25, 1, 93, false⟩, .varE 300 1 1 25⟩] 1 P6

/-!  Lemmas and theorems. -/

theorem expr_sizeOf_pos (e : Expr) : 0 < sizeOf e := by
  cases e <;> simp

theorem strip_copy :
    ∀ n : Nat,
      (∀ e : Expr, sizeOf e ≤ n → ∀ c, stripIds (copyExpr c e).1 = stripIds e) ∧
      (∀ l : List Expr, sizeOf l ≤ n →
        ∀ c, stripIdsList (copyExprList c l).1 = stripIdsList l) := by
  intro n
  induction n with
  | zero =>
    constructor
    · intro e he
      exact absurd he (by have := expr_sizeOf_pos e; omega)
    · intro l hl
      cases l with
      | nil => simp [copyExprList, stripIdsList]
      | cons x xs => simp at hl
  | succ n ih =>
    constructor
    · intro e he c
      cases e with
      | varE i v a t => simp [copyExpr, stripIds]
      | constE i v nn t => simp [copyExpr, stripIds]
      | paramE i p => simp [copyExpr, stripIds]
      | subplanE i p => simp [copyExpr, stripIds]
      | opE i o f rt rs args =>
          simp only [copyExpr, stripIds]
          have hsz : sizeOf args ≤ n := by simp at he; omega
          rw [ih.2 args hsz]
      | boolAnd i args =>
          simp only [copyExpr, stripIds]
          have hsz : sizeOf args ≤ n := by simp at he; omega
          rw [ih.2 args hsz]
      | boolOr i args =>
          simp only [copyExpr, stripIds]
          have hsz : sizeOf args ≤ n := by simp at he; omega
          rw [ih.2 args hsz]
      | funcE i fid rt args =>
          simp only [copyExpr, stripIds]
          have hsz : sizeOf args ≤ n := by simp at he; omega
          rw [ih.2 args hsz]
      | relabelE i a rt =>
          simp only [copyExpr, stripIds]
          have hsz : sizeOf a ≤ n := by simp at he; omega
          rw [ih.1 a hsz]
    · intro l hl c
      cases l with
      | nil => simp [copyExprList, stripIdsList]
      | cons x xs =>
          simp only [copyExprList, stripIdsList]
          have h1 : sizeOf x ≤ n := by simp at hl; omega
          have h2 : sizeOf xs ≤ n := by simp at hl; omega
          rw [ih.1 x h1, ih.2 xs h2]

/-- Deep copies are structurally equal to their originals. -/
theorem stripIds_copyExpr (c : Nat) (e : Expr) :
    stripIds (copyExpr c e).1 = stripIds e :=
  (strip_copy (sizeOf e)).1 e le_rfl c

theorem stripIdsList_copyExprList (c : Nat) (l : List Expr) :
    stripIdsList (copyExprList c l).1 = stripIdsList l :=
  (strip_copy (sizeOf l)).2 l le_rfl c

theorem pull_varnos_strip :
    ∀ n : Nat,
      (∀ e : Expr, sizeOf e ≤ n →
        ∀ acc, pullVarnosAcc acc (stripIds e) = pullVarnosAcc acc e) ∧
      (∀ l : List Expr, sizeOf l ≤ n →
        ∀ acc, pullVarnosList acc (stripIdsList l) = pullVarnosList acc l) := by
  intro n
  induction n with
  | zero =>
    constructor
    · intro e he
      exact absurd he (by have := expr_sizeOf_pos e; omega)
    · intro l hl
      cases l with
      | nil => simp [stripIdsList]
      | cons x xs => simp at hl
  | succ n ih =>
    constructor
    · intro e he acc
      cases e with
      | varE i v a t => simp [stripIds, pullVarnosAcc]
      | constE i v nn t => simp [stripIds, pullVarnosAcc]
      | paramE i p => simp [stripIds, pullVarnosAcc]
      | subplanE i p => simp [stripIds, pullVarnosAcc]
      | opE i o f rt rs args =>
          simp only [stripIds, pullVarnosAcc]
          exact ih.2 args (by simp at he; omega) acc
      | boolAnd i args =>
          simp only [stripIds, pullVarnosAcc]
          exact ih.2 args (by simp at he; omega) acc
      | boolOr i args =>
          simp only [stripIds, pullVarnosAcc]
          exact ih.2 args (by simp at he; omega) acc
      | funcE i fid rt args =>
          simp only [stripIds, pullVarnosAcc]
          exact ih.2 args (by simp at he; omega) acc
      | relabelE i a rt =>
          simp only [stripIds, pullVarnosAcc]
          exact ih.1 a (by simp at he; omega) acc
    · intro l hl acc
      cases l with
      | nil => simp [stripIdsList]
      | cons x xs =>
          simp only [stripIdsList, pullVarnosList]
          rw [ih.1 x (by simp at hl; omega) acc]
          exact ih.2 xs (by simp at hl; omega) _

/-- Structurally equal expressions reference the same varnos. -/
theorem pull_varnos_of_strip_eq {a b : Expr} (h : stripIds a = stripIds b) :
    pull_varnos a = pull_varnos b := by
  unfold pull_varnos
  rw [← (pull_varnos_strip (sizeOf a)).1 a le_rfl [],
      ← (pull_varnos_strip (sizeOf b)).1 b le_rfl [], h]

theorem ids_copy :
    ∀ n : Nat,
      (∀ e : Expr, sizeOf e ≤ n → ∀ c,
        c < (copyExpr c e).2 ∧ ∀ i ∈ exprIds (copyExpr c e).1, c ≤ i) ∧
      (∀ l : List Expr, sizeOf l ≤ n → ∀ c,
        c ≤ (copyExprList c l).2 ∧ ∀ i ∈ exprIdsList (copyExprList c l).1, c ≤ i) := by
  intro n
  induction n with
  | zero =>
    constructor
    · intro e he
      exact absurd he (by have := expr_sizeOf_pos e; omega)
    · intro l hl
      cases l with
      | nil => simp [copyExprList, exprIdsList]
      | cons x xs => simp at hl
  | succ n ih =>
    constructor
    · intro e he c
      cases e with
      | varE i v a t => simp [copyExpr, exprIds]
      | constE i v nn t => simp [copyExpr, exprIds]
      | paramE i p => simp [copyExpr, exprIds]
      | subplanE i p => simp [copyExpr, exprIds]
      | opE i o f rt rs args =>
          have h2 := ih.2 args (by simp at he; omega) (c+1)
          simp only [copyExpr, exprIds]
          constructor
          · omega
          · intro j hj
            simp only [List.mem_cons] at hj
            rcases hj with h | h
            · omega
            · have := h2.2 j h; omega
      | boolAnd i args =>
          have h2 := ih.2 args (by simp at he; omega) (c+1)
          simp only [copyExpr, exprIds]
          constructor
          · omega
          · intro j hj
            simp only [List.mem_cons] at hj
            rcases hj with h | h
            · omega
            · have := h2.2 j h; omega
      | boolOr i args =>
          have h2 := ih.2 args (by simp at he; omega) (c+1)
          simp only [copyExpr, exprIds]
          constructor
          · omega
          · intro j hj
            simp only [List.mem_cons] at hj
            rcases hj with h | h
            · omega
            · have := h2.2 j h; omega
      | funcE i fid rt args =>
          have h2 := ih.2 args (by simp at he; omega) (c+1)
          simp only [copyExpr, exprIds]
          constructor
          · omega
          · intro j hj
            simp only [List.mem_cons] at hj
            rcases hj with h | h
            · omega
            · have := h2.2 j h; omega
      | relabelE i a rt =>
          have h1 := ih.1 a (by simp at he; omega) (c+1)
          simp only [copyExpr, exprIds]
          constructor
          · omega
          · intro j hj
            simp only [List.mem_cons] at hj
            rcases hj with h | h
            · omega
            · have := h1.2 j h; omega
    · intro l hl c
      cases l with
      | nil => simp [copyExprList, exprIdsList]
      | cons x xs =>
          have h1 := ih.1 x (by simp at hl; omega) c
          have h2 := ih.2 xs (by simp at hl; omega) (copyExpr c x).2
          simp only [copyExprList, exprIdsList]
          constructor
          · omega
          · intro j hj
            simp only [List.mem_append] at hj
            rcases hj with h | h
            · exact h1.2 j h
            · have := h2.2 j h; omega

/-- Counter monotonicity of `copyExpr`. -/
theorem copyExpr_counter_lt (c : Nat) (e : Expr) : c < (copyExpr c e).2 :=
  ((ids_copy (sizeOf e)).1 e le_rfl c).1

/-- Freshness of `copyExpr`: every identity tag of the copy is at least
the starting counter. -/
theorem copyExpr_ids_ge (c : Nat) (e : Expr) :
    ∀ i ∈ exprIds (copyExpr c e).1, c ≤ i :=
  ((ids_copy (sizeOf e)).1 e le_rfl c).2

/-- The claim C8: `order_qual_clauses` is idempotent; a subplan-free query
returns the list unchanged; otherwise the result is the stable partition
with SubPlan-bearing clauses last. -/
theorem claim_C8_order_qual_clauses (root : Query) (L : List Expr) :
    order_qual_clauses root (order_qual_clauses root L) = order_qual_clauses root L ∧
    (root.hasSubLinks = false → order_qual_clauses root L = L) ∧
    (root.hasSubLinks = true →
      order_qual_clauses root L =
        L.filter (fun cl => !contain_subplans cl) ++ L.filter contain_subplans) := by
  cases hs : root.hasSubLinks with
  | false =>
      refine ⟨?_, fun _ => ?_, fun h => absurd h (by simp)⟩ <;>
        simp [order_qual_clauses, hs]
  | true =>
      refine ⟨?_, fun h => absurd h (by simp), fun _ => by
        simp [order_qual_clauses, hs]⟩
      simp only [order_qual_clauses, hs, Bool.not_true, Bool.false_eq_true,
        if_false, List.filter_append]
      have hA : (L.filter fun cl => !contain_subplans cl).filter
          (fun cl => !contain_subplans cl) = L.filter fun cl => !contain_subplans cl :=
        List.filter_eq_self.mpr (fun a ha => (List.mem_filter.mp ha).2)
      have hB : (L.filter contain_subplans).filter (fun cl => !contain_subplans cl) = [] := by
        rw [List.filter_eq_nil_iff]
        intro a ha
        have h2 := (List.mem_filter.mp ha).2
        simp [h2]
      have hC : (L.filter fun cl => !contain_subplans cl).filter contain_subplans = [] := by
        rw [List.filter_eq_nil_iff]
        intro a ha
        have h2 := (List.mem_filter.mp ha).2
        simp at h2
        simp [h2]
      have hD : (L.filter contain_subplans).filter contain_subplans =
          L.filter contain_subplans :=
        List.filter_eq_self.mpr (fun a ha => (List.mem_filter.mp ha).2)
      rw [hA, hB, hC, hD, List.append_nil, List.nil_append]

/-- Witness for C8 at a concrete query and clause list: one SubPlan-bearing
clause moves behind a plain clause, and re-ordering is a fixed point. -/
theorem claim_C8_witness :
    order_qual_clauses ⟨true⟩ [Expr.subplanE 0 3, Expr.varE 1 2 1 25] =
      [Expr.varE 1 2 1 25, Expr.subplanE 0 3] ∧
    order_qual_clauses ⟨true⟩ (order_qual_clauses ⟨true⟩
        [Expr.subplanE 0 3, Expr.varE 1 2 1 25]) =
      order_qual_clauses ⟨true⟩ [Expr.subplanE 0 3, Expr.varE 1 2 1 25] := by
  constructor
  · rw [(claim_C8_order_qual_clauses ⟨true⟩ _).2.2 rfl]
    simp [List.filter, contain_subplans]
  · exact (claim_C8_order_qual_clauses ⟨true⟩ _).1

/-- The width update of the Append loop is the binary maximum. -/
theorem int_if_lt_max (a b : Int) : (if a < b then b else a) = max a b := by
  rcases lt_or_le a b with h | h
  · simp [h, max_eq_right (le_of_lt h)]
  · simp [not_lt_of_le h, max_eq_left h]

/-- Characterization of the Append cost fold after the first iteration. -/
theorem append_fold_false (ps : List Plan) :
    ∀ acc : PlanCost,
      (ps.foldl append_cost_step (acc, false)).2 = false ∧
      (ps.foldl append_cost_step (acc, false)).1.startup_cost = acc.startup_cost ∧
      (ps.foldl append_cost_step (acc, false)).1.total_cost =
        acc.total_cost + (ps.map fun p => p.cost.total_cost).sum ∧
      (ps.foldl append_cost_step (acc, false)).1.plan_rows =
        acc.plan_rows + (ps.map fun p => p.cost.plan_rows).sum ∧
      (ps.foldl append_cost_step (acc, false)).1.plan_width =
        (ps.map fun p => p.cost.plan_width).foldl max acc.plan_width := by
  induction ps with
  | nil => intro acc; simp
  | cons p rest ih =>
      intro acc
      simp only [List.foldl_cons, List.map_cons, List.sum_cons]
      have hstep : append_cost_step (acc, false) p =
          ({ startup_cost := acc.startup_cost
             total_cost := acc.total_cost + p.cost.total_cost
             plan_rows := acc.plan_rows + p.cost.plan_rows
             plan_width := max acc.plan_width p.cost.plan_width }, false) := by
        simp [append_cost_step, int_if_lt_max]
      rw [hstep]
      have h := ih { startup_cost := acc.startup_cost
                     total_cost := acc.total_cost + p.cost.total_cost
                     plan_rows := acc.plan_rows + p.cost.plan_rows
                     plan_width := max acc.plan_width p.cost.plan_width }
      refine ⟨h.1, h.2.1, ?_, ?_, ?_⟩
      · rw [h.2.2.1]; ring
      · rw [h.2.2.2.1]; ring
      · rw [h.2.2.2.2]

/-- The claim C4: an Append plan's rows and total cost are the sums over
its children, its width the maximum of the children's widths (aggregates
starting from zero), and its startup cost is the first child's. -/
theorem claim_C4_append_costs (ps : List Plan) (b : Bool) (t : List TargetEntry) :
    (make_append ps b t).cost.plan_rows = (ps.map fun p => p.cost.plan_rows).sum ∧
    (make_append ps b t).cost.total_cost = (ps.map fun p => p.cost.total_cost).sum ∧
    (make_append ps b t).cost.plan_width =
      (ps.map fun p => p.cost.plan_width).foldl max 0 ∧
    (∀ p0 rest, ps = p0 :: rest →
      (make_append ps b t).cost.startup_cost = p0.cost.startup_cost) := by
  cases ps with
  | nil => simp [make_append, Plan.cost]
  | cons p rest =>
      have hstep : append_cost_step ((⟨0, 0, 0, 0⟩ : PlanCost), true) p =
          ({ startup_cost := p.cost.startup_cost
             total_cost := 0 + p.cost.total_cost
             plan_rows := 0 + p.cost.plan_rows
             plan_width := max 0 p.cost.plan_width }, false) := by
        simp [append_cost_step, int_if_lt_max]
      have h := append_fold_false rest
          { startup_cost := p.cost.startup_cost
            total_cost := 0 + p.cost.total_cost
            plan_rows := 0 + p.cost.plan_rows
            plan_width := max 0 p.cost.plan_width }
      constructor
      · show (((p :: rest).foldl append_cost_step (⟨0, 0, 0, 0⟩, true)).1).plan_rows = _
        rw [List.foldl_cons, hstep, h.2.2.2.1]
        simp
      constructor
      · show (((p :: rest).foldl append_cost_step (⟨0, 0, 0, 0⟩, true)).1).total_cost = _
        rw [List.foldl_cons, hstep, h.2.2.1]
        simp
      constructor
      · show (((p :: rest).foldl append_cost_step (⟨0, 0, 0, 0⟩, true)).1).plan_width = _
        rw [List.foldl_cons, hstep, h.2.2.2.2]
        simp
      · intro p0 rest0 hps
        injection hps with h1 h2
        subst h1; subst h2
        show (((p :: rest).foldl append_cost_step (⟨0, 0, 0, 0⟩, true)).1).startup_cost = _
        rw [List.foldl_cons, hstep, h.2.1]

/-- Witness for C4 at the two-child Append of spec scenario S6:
rows 5+7, costs 3+4, widths 8 and 12, startup costs 1 and 2. -/
theorem claim_C4_witness :
    (make_append [Plan.seqScan ⟨1, 3, 5, 8⟩ [] [] 1,
                  Plan.seqScan ⟨2, 4, 7, 12⟩ [] [] 2] false []).cost.plan_rows = 12 ∧
    (make_append [Plan.seqScan ⟨1, 3, 5, 8⟩ [] [] 1,
                  Plan.seqScan ⟨2, 4, 7, 12⟩ [] [] 2] false []).cost.total_cost = 7 ∧
    (make_append [Plan.seqScan ⟨1, 3, 5, 8⟩ [] [] 1,
                  Plan.seqScan ⟨2, 4, 7, 12⟩ [] [] 2] false []).cost.plan_width = 12 ∧
    (make_append [Plan.seqScan ⟨1, 3, 5, 8⟩ [] [] 1,
                  Plan.seqScan ⟨2, 4, 7, 12⟩ [] [] 2] false []).cost.startup_cost = 1 := by
  have h := claim_C4_append_costs
    [Plan.seqScan ⟨1, 3, 5, 8⟩ [] [] 1, Plan.seqScan ⟨2, 4, 7, 12⟩ [] [] 2] false []
  refine ⟨?_, ?_, ?_, ?_⟩
  · rw [h.1]; norm_num [Plan.cost]
  · rw [h.2.1]; norm_num [Plan.cost]
  · rw [h.2.2.1]; norm_num [Plan.cost]
  · rw [h.2.2.2 _ _ rfl]; simp [Plan.cost]

/-- The claim C3: a NestLoop over an inner IndexScan removes, by pointer
identity, a single-sublist `indxqualorig` that references more than one
relation from the join clauses that become `joinqual`; a single-relation
sublist and a multi-scan (OR) inner leave the join clauses untouched. -/
theorem claim_C3_nestloop_reduction (root : Query) (bp : NestPath)
    (tlist : List TargetEntry) (joinclauses otherclauses : List Expr)
    (outer_plan inner_plan : Plan) (c0 : PlanCost) (t0 : List TargetEntry)
    (q0 : List Expr) (sr : Nat) (ii : List Nat) (iq iqo : List (List Expr))
    (dir : Int)
    (hinner : inner_plan = Plan.indexScan c0 t0 q0 sr ii iq iqo dir) :
    (∀ sub, iqo = [sub] → 1 < NumRelidsLL iqo →
      (create_nestloop_plan root bp tlist joinclauses otherclauses
          outer_plan inner_plan).joinqualOf = set_difference joinclauses sub) ∧
    (∀ sub, iqo = [sub] → NumRelidsLL iqo ≤ 1 →
      (create_nestloop_plan root bp tlist joinclauses otherclauses
          outer_plan inner_plan).joinqualOf = joinclauses) ∧
    (1 < iqo.length →
      (create_nestloop_plan root bp tlist joinclauses otherclauses
          outer_plan inner_plan).joinqualOf = joinclauses) := by
  subst hinner
  refine ⟨?_, ?_, ?_⟩
  · intro sub hiqo hnum
    subst hiqo
    simp [create_nestloop_plan, make_nestloop, Plan.withCost, Plan.joinqualOf, hnum]
  · intro sub hiqo hnum
    subst hiqo
    have hnot : ¬ (1 < NumRelidsLL [sub]) := by omega
    simp [create_nestloop_plan, make_nestloop, Plan.withCost, Plan.joinqualOf, hnot]
  · intro hlen
    have hne : iqo.length ≠ 1 := by omega
    simp [create_nestloop_plan, make_nestloop, Plan.withCost, Plan.joinqualOf, hne]

/-- Witness for C3: an inner IndexScan whose single qual sublist joins
relations 1 and 2; the shared clause (identity tag 35) disappears from the
NestLoop's joinqual while the other clause stays. -/
theorem claim_C3_witness :
    (create_nestloop_plan ⟨false⟩ ⟨0, 0, 0, 0, 0⟩ []
        [Expr.opE 35 1 0 16 false [Expr.varE 36 1 1 25, Expr.varE 37 2 2 25],
         Expr.varE 9 1 1 16]
        [] (make_seqscan [] [] 2)
        (Plan.indexScan ⟨0, 0, 0, 0⟩ [] [] 1 [11]
          [[Expr.opE 35 1 0 16 false [Expr.varE 36 1 1 25, Expr.varE 37 2 2 25]]]
          [[Expr.opE 35 1 0 16 false [Expr.varE 36 1 1 25, Expr.varE 37 2 2 25]]]
          1)).joinqualOf = [Expr.varE 9 1 1 16] := by
  have h := (claim_C3_nestloop_reduction ⟨false⟩ ⟨0, 0, 0, 0, 0⟩ []
    [Expr.opE 35 1 0 16 false [Expr.varE 36 1 1 25, Expr.varE 37 2 2 25],
     Expr.varE 9 1 1 16]
    [] (make_seqscan [] [] 2) _ ⟨0, 0, 0, 0⟩ [] [] 1 [11]
    [[Expr.opE 35 1 0 16 false [Expr.varE 36 1 1 25, Expr.varE 37 2 2 25]]]
    [[Expr.opE 35 1 0 16 false [Expr.varE 36 1 1 25, Expr.varE 37 2 2 25]]]
    1 rfl).1
    [Expr.opE 35 1 0 16 false [Expr.varE 36 1 1 25, Expr.varE 37 2 2 25]] rfl
    (by simp [NumRelidsLL, pullVarnosLL, pullVarnosList, pullVarnosAcc, addVarno])
  rw [h]
  simp [set_difference, Expr.eid]

/-- Floor-at-one always yields at least one. -/
theorem rat_floor1_ge_one (x : Rat) : 1 ≤ if x < 1 then (1 : Rat) else x := by
  rcases lt_or_le x 1 with h | h
  · simp [h]
  · simp [not_lt_of_le h, h]

/-- Floor-at-one is the binary maximum with one. -/
theorem rat_floor1_eq_max (x : Rat) : (if x < 1 then (1 : Rat) else x) = max 1 x := by
  rcases lt_or_le x 1 with h | h
  · simp [h, max_eq_left (le_of_lt h)]
  · simp [not_lt_of_le h, max_eq_right h]

/-- Interpolating a `k/r` fraction of the cost range stays inside it. -/
theorem cost_interp_bounds {s t r k : Rat} (hst : s ≤ t) (hr : 0 < r)
    (hk0 : 0 ≤ k) (hkr : k ≤ r) :
    s ≤ s + (t - s) * k / r ∧ s + (t - s) * k / r ≤ t := by
  have h1 : 0 ≤ (t - s) * k / r :=
    div_nonneg (mul_nonneg (by linarith) hk0) (le_of_lt hr)
  constructor
  · linarith
  · have h2 : (t - s) * k / r ≤ t - s := by
      rw [div_le_iff hr]
      have := mul_le_mul_of_nonneg_left hkr (show (0:Rat) ≤ t - s by linarith)
      linarith
    linarith

/-- Truncation toward zero does not exceed a non-negative value. -/
theorem truncRat_le (q : Rat) (h : 0 ≤ q) : ((truncRat q : Int) : Rat) ≤ q := by
  simp only [truncRat, if_pos h]
  exact Int.floor_le q

/-- Truncation toward zero of a non-negative value is non-negative. -/
theorem truncRat_nonneg (q : Rat) (h : 0 ≤ q) : (0 : Rat) ≤ ((truncRat q : Int) : Rat) := by
  simp only [truncRat, if_pos h]
  exact_mod_cast Int.floor_nonneg.mpr h

/-- The clamped count of `make_limit` is the minimum of the constant and
the truncated row estimate. -/
theorem count_clamp_eq_min (v : Int) (r : Rat) (hv : 0 ≤ v) :
    (((if (v : Rat) > r then truncRat r else v) : Int) : Rat) =
      min (v : Rat) ((truncRat r : Int) : Rat) := by
  rcases lt_or_le r (v : Rat) with hgt | hle
  · rw [if_pos hgt]
    refine (min_eq_right ?_).symm
    rcases le_or_lt 0 r with hr | hr
    · calc ((truncRat r : Int) : Rat) ≤ r := truncRat_le r hr
        _ ≤ (v : Rat) := le_of_lt hgt
    · have hc : truncRat r = Int.ceil r := by simp [truncRat, not_le_of_lt hr]
      have h0 : Int.ceil r ≤ 0 := Int.ceil_le.mpr (by exact_mod_cast le_of_lt hr)
      have : ((truncRat r : Int) : Rat) ≤ 0 := by
        rw [hc]; exact_mod_cast h0
      have hv2 : (0 : Rat) ≤ (v : Rat) := by exact_mod_cast hv
      linarith
  · rw [if_neg (not_lt_of_le hle)]
    refine (min_eq_left ?_).symm
    have hr : 0 ≤ r := le_trans (by exact_mod_cast hv) hle
    simp only [truncRat, if_pos hr]
    exact_mod_cast Int.le_floor.mpr hle

/-- Unfolding of the count block on a non-null constant `c >= 0`. -/
theorem limit_count_adjust_eq (p : PlanCost) (v : Int) (hv : 0 ≤ v) :
    limit_count_adjust p (some (.constNode v false)) =
      { startup_cost := p.startup_cost
        total_cost :=
          if 0 < p.plan_rows then
            p.startup_cost + (p.total_cost - p.startup_cost) *
              (((if (v : Rat) > p.plan_rows then truncRat p.plan_rows else v) : Int) : Rat) /
              p.plan_rows
          else p.total_cost
        plan_rows :=
          if (((if (v : Rat) > p.plan_rows then truncRat p.plan_rows else v) : Int) : Rat) < 1
          then 1
          else (((if (v : Rat) > p.plan_rows then truncRat p.plan_rows else v) : Int) : Rat)
        plan_width := p.plan_width } := by
  simp only [limit_count_adjust]
  split_ifs with h1 h2 h3 h4 h5 <;> simp_all

/-- A null count constant leaves the cost record unchanged. -/
theorem limit_count_adjust_id_of_null (p : PlanCost) (v : Int) :
    limit_count_adjust p (some (.constNode v true)) = p := by
  simp [limit_count_adjust]

/-- A negative count constant leaves the cost record unchanged. -/
theorem limit_count_adjust_id_of_neg (p : PlanCost) (v : Int) (hv : v < 0) :
    limit_count_adjust p (some (.constNode v false)) = p := by
  simp [limit_count_adjust, not_le.mpr hv]

/-- Behaviour of the count block on a non-null constant `c ≥ 0`:
`plan_rows` becomes `max 1 (min c (trunc plan_rows))` and `total_cost`
stays inside the cost range. -/
theorem limit_count_adjust_spec (p : PlanCost) (v : Int) (hv : 0 ≤ v)
    (hst : p.startup_cost ≤ p.total_cost) :
    (limit_count_adjust p (some (.constNode v false))).plan_rows =
      max 1 (min (v : Rat) ((truncRat p.plan_rows : Int) : Rat)) ∧
    p.startup_cost ≤ (limit_count_adjust p (some (.constNode v false))).total_cost ∧
    (limit_count_adjust p (some (.constNode v false))).total_cost ≤ p.total_cost ∧
    (limit_count_adjust p (some (.constNode v false))).startup_cost = p.startup_cost := by
  have hcmin := count_clamp_eq_min v p.plan_rows hv
  rw [limit_count_adjust_eq p v hv]
  refine ⟨?_, ?_, ?_, rfl⟩
  · show (if _ then (1:Rat) else _) = _
    rw [rat_floor1_eq_max, hcmin]
  · show p.startup_cost ≤ if 0 < p.plan_rows then _ else p.total_cost
    rcases lt_or_le 0 p.plan_rows with hr | hr
    · rw [if_pos hr]
      have hk0 : 0 ≤ (((if (v : Rat) > p.plan_rows then truncRat p.plan_rows else v) : Int) : Rat) := by
        rw [hcmin]
        exact le_min (by exact_mod_cast hv) (truncRat_nonneg _ (le_of_lt hr))
      have hkr : (((if (v : Rat) > p.plan_rows then truncRat p.plan_rows else v) : Int) : Rat) ≤
          p.plan_rows := by
        rw [hcmin]
        exact le_trans (min_le_right _ _) (truncRat_le _ (le_of_lt hr))
      exact (cost_interp_bounds hst hr hk0 hkr).1
    · rw [if_neg (not_lt_of_le hr)]
      exact hst
  · show (if 0 < p.plan_rows then _ else p.total_cost) ≤ p.total_cost
    rcases lt_or_le 0 p.plan_rows with hr | hr
    · rw [if_pos hr]
      have hk0 : 0 ≤ (((if (v : Rat) > p.plan_rows then truncRat p.plan_rows else v) : Int) : Rat) := by
        rw [hcmin]
        exact le_min (by exact_mod_cast hv) (truncRat_nonneg _ (le_of_lt hr))
      have hkr : (((if (v : Rat) > p.plan_rows then truncRat p.plan_rows else v) : Int) : Rat) ≤
          p.plan_rows := by
        rw [hcmin]
        exact le_trans (min_le_right _ _) (truncRat_le _ (le_of_lt hr))
      exact (cost_interp_bounds hst hr hk0 hkr).2
    · rw [if_neg (not_lt_of_le hr)]

/-- The count block never changes the startup cost. -/
theorem limit_count_adjust_startup (p : PlanCost) (lc : Option LimitNode) :
    (limit_count_adjust p lc).startup_cost = p.startup_cost := by
  match lc with
  | none => rfl
  | some .otherNode => rfl
  | some (.constNode v isnull) =>
      simp only [limit_count_adjust]
      split_ifs <;> rfl

/-- The count block preserves a row estimate of at least one. -/
theorem limit_count_adjust_rows_ge (p : PlanCost) (lc : Option LimitNode)
    (h : 1 ≤ p.plan_rows) : 1 ≤ (limit_count_adjust p lc).plan_rows := by
  match lc with
  | none => exact h
  | some .otherNode => exact h
  | some (.constNode v isnull) =>
      match isnull with
      | true => rw [limit_count_adjust_id_of_null]; exact h
      | false =>
          rcases le_or_lt 0 v with hv | hv
          · rw [limit_count_adjust_eq p v hv]
            exact rat_floor1_ge_one _
          · rw [limit_count_adjust_id_of_neg p v hv]; exact h

/-- Unfolding of the offset block on a non-null constant `o > 0`. -/
theorem limit_offset_adjust_eq (p : PlanCost) (v : Int) (hv : 0 < v) :
    limit_offset_adjust p (some (.constNode v false)) =
      { startup_cost :=
          if 0 < p.plan_rows then
            p.startup_cost + (p.total_cost - p.startup_cost) *
              (((if (v : Rat) > p.plan_rows then truncRat p.plan_rows else v) : Int) : Rat) /
              p.plan_rows
          else p.startup_cost
        total_cost := p.total_cost
        plan_rows :=
          if p.plan_rows -
              (((if (v : Rat) > p.plan_rows then truncRat p.plan_rows else v) : Int) : Rat) < 1
          then 1
          else p.plan_rows -
              (((if (v : Rat) > p.plan_rows then truncRat p.plan_rows else v) : Int) : Rat)
        plan_width := p.plan_width } := by
  simp only [limit_offset_adjust]
  split_ifs with h1 h2 h3 h4 h5 <;> simp_all

/-- Behaviour of the offset block on a non-null constant `o > 0`: the
advanced startup cost stays inside the cost range and the row estimate is
floored at one. -/
theorem limit_offset_adjust_spec (p : PlanCost) (v : Int) (hv : 0 < v)
    (hst : p.startup_cost ≤ p.total_cost) :
    (limit_offset_adjust p (some (.constNode v false))).startup_cost ≤ p.total_cost ∧
    1 ≤ (limit_offset_adjust p (some (.constNode v false))).plan_rows ∧
    (limit_offset_adjust p (some (.constNode v false))).total_cost = p.total_cost ∧
    p.startup_cost ≤ (limit_offset_adjust p (some (.constNode v false))).startup_cost := by
  rw [limit_offset_adjust_eq p v hv]
  refine ⟨?_, rat_floor1_ge_one _, rfl, ?_⟩
  · show (if 0 < p.plan_rows then _ else p.startup_cost) ≤ p.total_cost
    rcases lt_or_le 0 p.plan_rows with hr | hr
    · rw [if_pos hr]
      have hk0 : 0 ≤ (((if (v : Rat) > p.plan_rows then truncRat p.plan_rows else v) : Int) : Rat) := by
        rw [count_clamp_eq_min v p.plan_rows (le_of_lt hv)]
        exact le_min (by exact_mod_cast le_of_lt hv) (truncRat_nonneg _ (le_of_lt hr))
      have hkr : (((if (v : Rat) > p.plan_rows then truncRat p.plan_rows else v) : Int) : Rat) ≤
          p.plan_rows := by
        rw [count_clamp_eq_min v p.plan_rows (le_of_lt hv)]
        exact le_trans (min_le_right _ _) (truncRat_le _ (le_of_lt hr))
      exact (cost_interp_bounds hst hr hk0 hkr).2
    · rw [if_neg (not_lt_of_le hr)]
      exact hst
  · show p.startup_cost ≤ if 0 < p.plan_rows then _ else p.startup_cost
    rcases lt_or_le 0 p.plan_rows with hr | hr
    · rw [if_pos hr]
      have hk0 : 0 ≤ (((if (v : Rat) > p.plan_rows then truncRat p.plan_rows else v) : Int) : Rat) := by
        rw [count_clamp_eq_min v p.plan_rows (le_of_lt hv)]
        exact le_min (by exact_mod_cast le_of_lt hv) (truncRat_nonneg _ (le_of_lt hr))
      have hkr : (((if (v : Rat) > p.plan_rows then truncRat p.plan_rows else v) : Int) : Rat) ≤
          p.plan_rows := by
        rw [count_clamp_eq_min v p.plan_rows (le_of_lt hv)]
        exact le_trans (min_le_right _ _) (truncRat_le _ (le_of_lt hr))
      exact (cost_interp_bounds hst hr hk0 hkr).1
    · rw [if_neg (not_lt_of_le hr)]

/-- The claim C10: with a non-null constant offset `o > 0` (and a sane
child cost range), `make_limit` clamps the offset to the child's row
estimate, so the resulting startup cost never exceeds the child's total
cost and the resulting row estimate is at least one, whatever the count
bound is. -/
theorem claim_C10_limit_offset_clamp (tlist : List TargetEntry) (child : Plan)
    (v : Int) (lc : Option LimitNode) (hv : 0 < v)
    (hst : child.cost.startup_cost ≤ child.cost.total_cost) :
    (make_limit tlist child (some (.constNode v false)) lc).cost.startup_cost ≤
      child.cost.total_cost ∧
    1 ≤ (make_limit tlist child (some (.constNode v false)) lc).cost.plan_rows := by
  have hoff := limit_offset_adjust_spec child.cost v hv hst
  have hc : (make_limit tlist child (some (.constNode v false)) lc).cost =
      limit_count_adjust
        (limit_offset_adjust child.cost (some (.constNode v false))) lc := by
    simp [make_limit, copy_plan_costsize, Plan.cost]
  constructor
  · rw [hc, limit_count_adjust_startup]
    exact hoff.1
  · rw [hc]
    exact limit_count_adjust_rows_ge _ _ hoff.2.1

/-- Witness for C10: child costs (2, 10), 3 rows, offset 100 (far beyond
the row estimate): the startup cost stays at most 10 and at least one row
is reported. -/
theorem claim_C10_witness :
    (make_limit [] (Plan.seqScan ⟨2, 10, 3, 0⟩ [] [] 1)
        (some (.constNode 100 false)) none).cost.startup_cost ≤ 10 ∧
    1 ≤ (make_limit [] (Plan.seqScan ⟨2, 10, 3, 0⟩ [] [] 1)
        (some (.constNode 100 false)) none).cost.plan_rows := by
  have h := claim_C10_limit_offset_clamp [] (Plan.seqScan ⟨2, 10, 3, 0⟩ [] [] 1)
    100 none (by norm_num) (by norm_num [Plan.cost])
  constructor
  · have := h.1; simpa [Plan.cost] using this
  · exact h.2

/-- Counterexample for C5 as stated: with child rows 11/2 and constant
count 10, the code truncates the row estimate through the `(int32)` cast,
producing 5, not `min(10, 11/2) = 11/2` floored at 1. -/
theorem claim_C5_counterexample :
    (make_limit [] (Plan.seqScan ⟨0, 10, 11/2, 0⟩ [] [] 1) none
        (some (.constNode 10 false))).cost.plan_rows ≠
      max 1 (min ((10 : Int) : Rat) ((11 : Rat)/2)) := by
  have hrw : (make_limit [] (Plan.seqScan ⟨0, 10, 11/2, 0⟩ [] [] 1) none
      (some (.constNode 10 false))).cost =
      limit_count_adjust ⟨0, 10, 11/2, 0⟩ (some (.constNode 10 false)) := by
    simp [make_limit, copy_plan_costsize, Plan.cost, limit_offset_adjust]
  rw [hrw, limit_count_adjust_eq _ _ (by norm_num)]
  have ht : truncRat ((11 : Rat)/2) = 5 := by
    rw [truncRat, if_pos (by norm_num)]
    rw [Int.floor_eq_iff] <;> norm_num
  have hgt : ((10 : Int) : Rat) > (11 : Rat)/2 := by norm_num
  show (if _ then (1:Rat) else _) ≠ _
  rw [if_pos hgt, ht]
  norm_num

/-- The claim C5 as amended: with no offset and a non-null constant count
`c ≥ 0` (and a sane child cost range), the Limit's `plan_rows` is
`min(c, trunc(child.plan_rows))` floored at 1 — the child's row estimate
passes through the truncating `(int32)` cast when `c` exceeds it — its
`total_cost` lies in `[child.startup_cost, child.total_cost]`, and
non-constant bounds leave the copied costs unchanged. -/
theorem claim_C5_limit_count_trunc (tlist : List TargetEntry) (child : Plan)
    (v : Int) (hv : 0 ≤ v)
    (hst : child.cost.startup_cost ≤ child.cost.total_cost) :
    (make_limit tlist child none (some (.constNode v false))).cost.plan_rows =
      max 1 (min (v : Rat) ((truncRat child.cost.plan_rows : Int) : Rat)) ∧
    child.cost.startup_cost ≤
      (make_limit tlist child none (some (.constNode v false))).cost.total_cost ∧
    (make_limit tlist child none (some (.constNode v false))).cost.total_cost ≤
      child.cost.total_cost ∧
    (∀ tl2, (make_limit tl2 child none none).cost = child.cost) ∧
    (∀ tl2, (make_limit tl2 child none (some .otherNode)).cost = child.cost) := by
  have hrw : (make_limit tlist child none (some (.constNode v false))).cost =
      limit_count_adjust child.cost (some (.constNode v false)) := by
    simp [make_limit, copy_plan_costsize, Plan.cost, limit_offset_adjust]
  have hs := limit_count_adjust_spec child.cost v hv hst
  refine ⟨?_, ?_, ?_, ?_, ?_⟩
  · rw [hrw]; exact hs.1
  · rw [hrw]; exact hs.2.1
  · rw [hrw]; exact hs.2.2.1
  · intro tl2
    simp [make_limit, copy_plan_costsize, Plan.cost, limit_offset_adjust,
      limit_count_adjust]
  · intro tl2
    simp [make_limit, copy_plan_costsize, Plan.cost, limit_offset_adjust,
      limit_count_adjust]

/-- Witness for the amended C5 at the counterexample's input: the reported
rows are exactly 5 (the truncated estimate) and the total cost stays at
most the child's. -/
theorem claim_C5_witness :
    (make_limit [] (Plan.seqScan ⟨0, 10, 11/2, 0⟩ [] [] 1) none
        (some (.constNode 10 false))).cost.plan_rows = 5 ∧
    (make_limit [] (Plan.seqScan ⟨0, 10, 11/2, 0⟩ [] [] 1) none
        (some (.constNode 10 false))).cost.total_cost ≤ 10 := by
  have h := claim_C5_limit_count_trunc [] (Plan.seqScan ⟨0, 10, 11/2, 0⟩ [] [] 1) 10
    (by norm_num) (by norm_num [Plan.cost])
  have hcost : (Plan.seqScan (⟨0, 10, 11/2, 0⟩ : PlanCost) [] [] 1).cost =
      (⟨0, 10, 11/2, 0⟩ : PlanCost) := by simp [Plan.cost]
  constructor
  · rw [h.1, hcost]
    have ht : truncRat ((11 : Rat)/2) = 5 := by
      rw [truncRat, if_pos (by norm_num)]
      rw [Int.floor_eq_iff] <;> norm_num
    show max 1 (min _ ((truncRat ((11:Rat)/2) : Int) : Rat)) = 5
    rw [ht, min_eq_right (by norm_num), max_eq_right (by norm_num)]
    norm_num
  · have h2 := h.2.2.1
    rw [hcost] at h2
    exact h2

/-- Inversion of `get_switched_clauses`: the output has the input's length;
positionally, a clause whose right side lies within the outer relids is
replaced by a fresh commuted node with the argument subtrees swapped and
`opfuncid` cleared, and any other clause is passed through unchanged. -/
theorem get_switched_clauses_spec (cat : Catalog) (outerrelids : List Nat) :
    ∀ (clauses : List RestrictInfo) (c : Nat) (out : List Expr) (c2 : Nat),
      get_switched_clauses cat c clauses outerrelids = some (out, c2) →
      out.length = clauses.length ∧
      ∀ k ri, clauses.get? k = some ri →
        (is_subseti ri.right_relids outerrelids = false → out.get? k = some ri.clause) ∧
        (is_subseti ri.right_relids outerrelids = true →
          ∃ e eo opno opf rt rs a b, ri.clause = .opE eo opno opf rt rs [a, b] ∧
            out.get? k = some (.opE e (cat.get_commutator opno) 0 rt rs [b, a])) := by
  intro clauses
  induction clauses with
  | nil =>
      intro c out c2 h
      simp only [get_switched_clauses, Option.some.injEq, Prod.mk.injEq] at h
      obtain ⟨h1, h2⟩ := h
      subst h1
      refine ⟨rfl, ?_⟩
      intro k ri hk
      simp at hk
  | cons ri rest ih =>
      intro c out c2 h
      simp only [get_switched_clauses] at h
      by_cases hsub : is_subseti ri.right_relids outerrelids = true
      · rw [if_pos hsub] at h
        cases hcl : ri.clause with
        | opE eo opno opf rt rs args =>
            rw [hcl] at h
            match args with
            | [] => simp at h
            | [a] => simp at h
            | a :: b :: x :: xs => simp at h
            | [a, b] =>
                cases hrec : get_switched_clauses cat (c+1) rest outerrelids with
                | none => rw [hrec] at h; simp at h
                | some p =>
                    obtain ⟨ts, c3⟩ := p
                    rw [hrec] at h
                    simp only [CommuteClause, Option.some.injEq, Prod.mk.injEq] at h
                    obtain ⟨hout, hc⟩ := h
                    subst hout
                    have ihr := ih (c+1) ts c3 hrec
                    refine ⟨by simp [ihr.1], ?_⟩
                    intro k ri2 hk
                    match k with
                    | 0 =>
                        simp only [List.get?] at hk
                        injection hk with hk
                        subst hk
                        constructor
                        · intro hfalse
                          rw [hsub] at hfalse
                          exact absurd hfalse (by simp)
                        · intro _
                          exact ⟨c, eo, opno, opf, rt, rs, a, b, hcl, rfl⟩
                    | Nat.succ k2 =>
                        simp only [List.get?] at hk ⊢
                        exact ihr.2 k2 ri2 hk
        | varE i v va vt => rw [hcl] at h; simp at h
        | constE i cv cn ct => rw [hcl] at h; simp at h
        | paramE i p => rw [hcl] at h; simp at h
        | subplanE i p => rw [hcl] at h; simp at h
        | boolAnd i args => rw [hcl] at h; simp at h
        | boolOr i args => rw [hcl] at h; simp at h
        | funcE i f rt args => rw [hcl] at h; simp at h
        | relabelE i a rt => rw [hcl] at h; simp at h
      · rw [if_neg hsub] at h
        cases hrec : get_switched_clauses cat c rest outerrelids with
        | none => rw [hrec] at h; simp at h
        | some p =>
            obtain ⟨ts, c3⟩ := p
            rw [hrec] at h
            simp only [Option.some.injEq, Prod.mk.injEq] at h
            obtain ⟨hout, hc⟩ := h
            subst hout
            have ihr := ih c ts c3 hrec
            refine ⟨by simp [ihr.1], ?_⟩
            intro k ri2 hk
            match k with
            | 0 =>
                simp only [List.get?] at hk
                injection hk with hk
                subst hk
                constructor
                · intro _; rfl
                · intro htrue
                  exact absurd htrue hsub
            | Nat.succ k2 =>
                simp only [List.get?] at hk ⊢
                exact ihr.2 k2 ri2 hk

/-- A non-empty relid list cannot lie inside both sides of a disjoint
pair. -/
theorem not_subseti_both {l outer inner : List Nat} (hne : l ≠ [])
    (hdisj : RelidsDisjoint outer inner) (h1 : is_subseti l outer = true)
    (h2 : is_subseti l inner = true) : False := by
  match l, hne with
  | x :: xs, _ =>
      simp only [is_subseti, List.all_cons, Bool.and_eq_true] at h1 h2
      exact hdisj x (by simpa using h1.1) (by simpa using h2.1)

/-- Every clause produced by `get_switched_clauses` from well-formed
merge/hash RestrictInfos has its left operand on the outer side and its
right operand on the inner side. -/
theorem get_switched_clauses_oriented (cat : Catalog) (outer inner : List Nat)
    (clauses : List RestrictInfo) (c c2 : Nat) (out : List Expr)
    (hdisj : RelidsDisjoint outer inner)
    (hori : ∀ ri ∈ clauses, RIOriented outer inner ri)
    (h : get_switched_clauses cat c clauses outer = some (out, c2)) :
    ∀ cl ∈ out, ∃ e opno opf rt rs a b, cl = .opE e opno opf rt rs [a, b] ∧
      is_subseti (pull_varnos a) outer = true ∧
      is_subseti (pull_varnos b) inner = true := by
  have hspec := get_switched_clauses_spec cat outer clauses c out c2 h
  intro cl hcl
  obtain ⟨k, hk⟩ := List.mem_iff_get?.mp hcl
  have hklt : k < clauses.length := by
    rw [← hspec.1]
    exact List.get?_eq_some.mp hk |>.1
  have hri : clauses.get? k = some (clauses.get ⟨k, hklt⟩) := List.get?_eq_get hklt
  set ri := clauses.get ⟨k, hklt⟩ with hridef
  have hmem : ri ∈ clauses := List.get_mem clauses k hklt
  obtain ⟨eo, opno, opf, rt, rs, a, b, hcl2, hla, hrb, hlne, hrne, hsides⟩ := hori ri hmem
  have hk2 := hspec.2 k ri hri
  by_cases hsub : is_subseti ri.right_relids outer = true
  · obtain ⟨e, eo2, opno2, opf2, rt2, rs2, a2, b2, hcl3, hout⟩ := hk2.2 hsub
    rw [hcl2] at hcl3
    injection hcl3 with h1 h2 h3 h4 h5 h6
    obtain ⟨ha, hb⟩ : a = a2 ∧ b = b2 := by
      injection h6 with hx h7
      injection h7 with hy h8
      exact ⟨hx, hy⟩
    subst ha; subst hb
    rw [hk] at hout
    injection hout with hout
    rcases hsides with ⟨hlo, hrin⟩ | ⟨hlin, hro⟩
    · exact absurd (not_subseti_both hrne hdisj hsub hrin) (fun f => f)
    · exact ⟨e, cat.get_commutator opno2, 0, rt2, rs2, b, a, hout,
        by rw [← hrb]; exact hro, by rw [← hla]; exact hlin⟩
  · have hout := hk2.1 (by simpa using hsub)
    rw [hk] at hout
    injection hout with hout
    rcases hsides with ⟨hlo, hrin⟩ | ⟨hlin, hro⟩
    · exact ⟨eo, opno, opf, rt, rs, a, b, hout.trans hcl2,
        by rw [← hla]; exact hlo, by rw [← hrb]; exact hrin⟩
    · exact absurd hro hsub

/-- The claim C2: `get_switched_clauses` preserves length and maps each
clause either to a commuted shallow clone (arguments swapped, `opfuncid`
cache cleared to InvalidOid) when its right-side relids lie within the
outer relids, or to the original bare clause; consequently every clause in
a produced MergeJoin's mergeclauses or HashJoin's hashclauses has its left
operand referring only to outer-side relids and its right operand only to
inner-side relids.  (The function builds a new list and new top nodes, so
the input RestrictInfos are not modified — in this pure embedding the
inputs appear unchanged in the conclusion.) -/
theorem claim_C2_switched_clauses (cat : Catalog) :
    (∀ outerrelids clauses c out c2,
      get_switched_clauses cat c clauses outerrelids = some (out, c2) →
      out.length = clauses.length ∧
      ∀ k ri, clauses.get? k = some ri →
        (is_subseti ri.right_relids outerrelids = false → out.get? k = some ri.clause) ∧
        (is_subseti ri.right_relids outerrelids = true →
          ∃ e eo opno opf rt rs a b, ri.clause = .opE eo opno opf rt rs [a, b] ∧
            out.get? k = some (.opE e (cat.get_commutator opno) 0 rt rs [b, a]))) ∧
    (∀ outer inner clauses c out c2, RelidsDisjoint outer inner →
      (∀ ri ∈ clauses, RIOriented outer inner ri) →
      get_switched_clauses cat c clauses outer = some (out, c2) →
      ∀ cl ∈ out, ∃ e opno opf rt rs a b, cl = .opE e opno opf rt rs [a, b] ∧
        is_subseti (pull_varnos a) outer = true ∧
        is_subseti (pull_varnos b) inner = true) ∧
    (∀ root c3 (bp : MergePath) tlist jc oc op ip plan c4,
      RelidsDisjoint bp.outer_relids bp.inner_relids →
      (∀ ri ∈ bp.path_mergeclauses, RIOriented bp.outer_relids bp.inner_relids ri) →
      create_mergejoin_plan root cat c3 bp tlist jc oc op ip = some (plan, c4) →
      ∀ cl ∈ plan.mergeclausesOf, ∃ e opno opf rt rs a b,
        cl = .opE e opno opf rt rs [a, b] ∧
        is_subseti (pull_varnos a) bp.outer_relids = true ∧
        is_subseti (pull_varnos b) bp.inner_relids = true) ∧
    (∀ root c3 (bp : HashPath) inner tlist jc oc op ip plan c4,
      RelidsDisjoint bp.outer_relids inner →
      (∀ ri ∈ bp.path_hashclauses, RIOriented bp.outer_relids inner ri) →
      create_hashjoin_plan root cat c3 bp tlist jc oc op ip = some (plan, c4) →
      ∀ cl ∈ plan.hashclausesOf, ∃ e opno opf rt rs a b,
        cl = .opE e opno opf rt rs [a, b] ∧
        is_subseti (pull_varnos a) bp.outer_relids = true ∧
        is_subseti (pull_varnos b) inner = true) := by
  refine ⟨fun o cl c out c2 h => get_switched_clauses_spec cat o cl c out c2 h,
    fun outer inner cl c out c2 hd ho h =>
      get_switched_clauses_oriented cat outer inner cl c c2 out hd ho h,
    ?_, ?_⟩
  · intro root c3 bp tlist jc oc op ip plan c4 hdisj hori h
    simp only [create_mergejoin_plan] at h
    cases hsw : get_switched_clauses cat c3 bp.path_mergeclauses bp.outer_relids with
    | none => rw [hsw] at h; simp at h
    | some p =>
        obtain ⟨mcs, c1⟩ := p
        rw [hsw] at h
        cases hout : (if bp.outersortkeys.isEmpty then some op
            else make_sort_from_pathkeys root cat op bp.outer_relids
              bp.outersortkeys) with
        | none => rw [hout] at h; simp at h
        | some op2 =>
            rw [hout] at h
            cases hin : (if bp.innersortkeys.isEmpty then some ip
                else make_sort_from_pathkeys root cat ip bp.inner_relids
                  bp.innersortkeys) with
            | none => rw [hin] at h; simp at h
            | some ip2 =>
                rw [hin] at h
                simp only [Option.some.injEq, Prod.mk.injEq] at h
                obtain ⟨hplan, hc⟩ := h
                subst hplan
                intro cl hcl
                have hmc : ((make_mergejoin tlist
                    (set_difference jc (get_actual_clauses bp.path_mergeclauses))
                    oc mcs op2 ip2 bp.jointype).withCost
                    ⟨bp.startup_cost, bp.total_cost, bp.parent_rows,
                     bp.parent_width⟩).mergeclausesOf = mcs := by
                  simp [make_mergejoin, Plan.withCost, Plan.mergeclausesOf]
                rw [hmc] at hcl
                exact get_switched_clauses_oriented cat bp.outer_relids
                  bp.inner_relids bp.path_mergeclauses c3 c1 mcs hdisj hori hsw
                  cl hcl
  · intro root c3 bp inner tlist jc oc op ip plan c4 hdisj hori h
    simp only [create_hashjoin_plan] at h
    cases hsw : get_switched_clauses cat c3 bp.path_hashclauses bp.outer_relids with
    | none => rw [hsw] at h; simp at h
    | some p =>
        obtain ⟨hcs, c1⟩ := p
        rw [hsw] at h
        simp only [Option.some.injEq, Prod.mk.injEq] at h
        obtain ⟨hplan, hc⟩ := h
        subst hplan
        intro cl hcl
        have hmc : ((make_hashjoin tlist
            (set_difference jc (get_actual_clauses bp.path_hashclauses))
            oc hcs op (make_hash ip.targetlist (hcs.map get_rightop) ip)
            bp.jointype).withCost
            ⟨bp.startup_cost, bp.total_cost, bp.parent_rows,
             bp.parent_width⟩).hashclausesOf = hcs := by
          simp [make_hashjoin, Plan.withCost, Plan.hashclausesOf]
        rw [hmc] at hcl
        exact get_switched_clauses_oriented cat bp.outer_relids inner
          bp.path_hashclauses c3 c1 hcs hdisj hori hsw cl hcl

/-- Witness for C2 at two concrete RestrictInfos over outer relids `[1]`
and inner relids `[2]`: the first clause (right side on the outer side) is
commuted, the second passes through as the original node. -/
theorem claim_C2_witness :
    get_switched_clauses cat0 20 [ri1c, ri2c] [1] = some (swOut.1, swOut.2) ∧
    swOut.1.length = 2 ∧
    (∃ e eo opno opf rt rs a b, ri1c.clause = .opE eo opno opf rt rs [a, b] ∧
      swOut.1.get? 0 = some (.opE e (cat0.get_commutator opno) 0 rt rs [b, a])) ∧
    swOut.1.get? 1 = some ri2c.clause := by
  have hh : get_switched_clauses cat0 20 [ri1c, ri2c] [1] = some (swOut.1, swOut.2) := rfl
  have h := (claim_C2_switched_clauses cat0).1 [1] [ri1c, ri2c] 20 swOut.1 swOut.2 hh
  refine ⟨hh, by rw [h.1]; rfl, ?_, ?_⟩
  · exact (h.2 0 ri1c rfl).2 rfl
  · exact (h.2 1 ri2c rfl).1 rfl

/-- `fix_indxqual_operand` always returns a fresh Var tagged with its
starting counter and advances the counter by one. -/
theorem fix_indxqual_operand_fresh (c : Nat) (node : Expr) (b : Nat)
    (ix : IndexOptInfo) (e' : Expr) (oc c' : Nat)
    (h : fix_indxqual_operand c node b ix = some ((e', oc), c')) :
    c' = c + 1 ∧ ∃ vn va vt, e' = .varE c vn va vt := by
  unfold fix_indxqual_operand at h
  split at h <;> dsimp only at h <;> split at h <;>
    (try split at h) <;> (try split at h) <;>
    first
      | (simp only [Option.some.injEq, Prod.mk.injEq] at h
         exact ⟨h.2.symm, _, _, _, h.1.1.symm⟩)
      | simp at h

/-- Identity tags of a binary operator node are the top tag and the tags of
the two arguments. -/
theorem opE_ids_cases {i ne opno opf rt : Nat} {rs : Bool} {x y : Expr}
    (hi : i ∈ exprIds (.opE ne opno opf rt rs [x, y])) :
    i = ne ∨ i ∈ exprIds x ∨ i ∈ exprIds y := by
  simp [exprIds, exprIdsList] at hi
  tauto

/-- Freshness of `fix_indxqual_sublist`: the counter never decreases and
every identity tag in the fixed output is at least the starting counter
(the fixed clauses are built exclusively from fresh nodes). -/
theorem fix_indxqual_sublist_fresh (cat : Catalog) (b : Nat) (ix : IndexOptInfo) :
    ∀ (iq : List Expr) (c : Nat) (fq rq : List Expr) (c' : Nat),
      fix_indxqual_sublist cat c iq b ix = some ((fq, rq), c') →
      c ≤ c' ∧ ∀ e ∈ fq, ∀ i ∈ exprIds e, c ≤ i := by
  intro iq
  induction iq with
  | nil =>
      intro c fq rq c' h
      simp only [fix_indxqual_sublist, Option.some.injEq, Prod.mk.injEq] at h
      obtain ⟨⟨h1, h2⟩, h3⟩ := h
      subst h1; subst h3
      exact ⟨le_refl _, by simp⟩
  | cons clause rest ih =>
      intro c fq rq c' h
      cases clause with
      | opE e o f rt rs args =>
          rcases args with _ | ⟨a1, _ | ⟨a2, _ | ⟨a3, args3⟩⟩⟩
          · simp [fix_indxqual_sublist] at h
          · simp [fix_indxqual_sublist] at h
          case cons.cons.nil =>
            simp only [fix_indxqual_sublist] at h
            have hc1 := copyExpr_counter_lt (c+1) a1
            have hc2 := copyExpr_counter_lt ((copyExpr (c+1) a1).2) a2
            have hia1 := copyExpr_ids_ge (c+1) a1
            have hia2 := copyExpr_ids_ge ((copyExpr (c+1) a1).2) a2
            by_cases hcomm : ((pull_varnos (copyExpr (c + 1) a1).1).length ≠ 1 ∨
                (pull_varnos (copyExpr (c + 1) a1).1).headD 0 ≠ b)
            · rw [if_pos hcomm] at h
              simp only [CommuteClause] at h
              split at h
              next fixedArg opclass c3 heq =>
                obtain ⟨hc3, vn, va, vt, hfa⟩ :=
                  fix_indxqual_operand_fresh _ _ _ _ _ _ _ heq
                split at h
                next hlossy =>
                  have hc4 := copyExpr_counter_lt c3 (Expr.opE e o f rt rs [a1, a2])
                  split at h
                  next fqr rqr c5 heq2 =>
                    have ihr := ih _ fqr rqr c5 heq2
                    simp only [Option.some.injEq, Prod.mk.injEq] at h
                    obtain ⟨⟨hfq, hrq⟩, hc5⟩ := h
                    subst hfq; subst hc5
                    constructor
                    · omega
                    · intro e2 he2 i hi
                      simp only [List.mem_cons] at he2
                      rcases he2 with rfl | he2
                      · rcases opE_ids_cases hi with rfl | hx | hy
                        · omega
                        · rw [hfa] at hx
                          simp [exprIds] at hx
                          omega
                        · have := hia1 i hy; omega
                      · have := ihr.2 e2 he2 i hi; omega
                  next => simp at h
                next hlossy =>
                  split at h
                  next fqr rqr c5 heq2 =>
                    have ihr := ih _ fqr rqr c5 heq2
                    simp only [Option.some.injEq, Prod.mk.injEq] at h
                    obtain ⟨⟨hfq, hrq⟩, hc5⟩ := h
                    subst hfq; subst hc5
                    constructor
                    · omega
                    · intro e2 he2 i hi
                      simp only [List.mem_cons] at he2
                      rcases he2 with rfl | he2
                      · rcases opE_ids_cases hi with rfl | hx | hy
                        · omega
                        · rw [hfa] at hx
                          simp [exprIds] at hx
                          omega
                        · have := hia1 i hy; omega
                      · have := ihr.2 e2 he2 i hi; omega
                  next => simp at h
              next => simp at h
            · rw [if_neg hcomm] at h
              dsimp only at h
              split at h
              next fixedArg opclass c3 heq =>
                obtain ⟨hc3, vn, va, vt, hfa⟩ :=
                  fix_indxqual_operand_fresh _ _ _ _ _ _ _ heq
                split at h
                next hlossy =>
                  have hc4 := copyExpr_counter_lt c3 (Expr.opE e o f rt rs [a1, a2])
                  split at h
                  next fqr rqr c5 heq2 =>
                    have ihr := ih _ fqr rqr c5 heq2
                    simp only [Option.some.injEq, Prod.mk.injEq] at h
                    obtain ⟨⟨hfq, hrq⟩, hc5⟩ := h
                    subst hfq; subst hc5
                    constructor
                    · omega
                    · intro e2 he2 i hi
                      simp only [List.mem_cons] at he2
                      rcases he2 with rfl | he2
                      · rcases opE_ids_cases hi with rfl | hx | hy
                        · omega
                        · rw [hfa] at hx
                          simp [exprIds] at hx
                          omega
                        · have := hia2 i hy; omega
                      · have := ihr.2 e2 he2 i hi; omega
                  next => simp at h
                next hlossy =>
                  split at h
                  next fqr rqr c5 heq2 =>
                    have ihr := ih _ fqr rqr c5 heq2
                    simp only [Option.some.injEq, Prod.mk.injEq] at h
                    obtain ⟨⟨hfq, hrq⟩, hc5⟩ := h
                    subst hfq; subst hc5
                    constructor
                    · omega
                    · intro e2 he2 i hi
                      simp only [List.mem_cons] at he2
                      rcases he2 with rfl | he2
                      · rcases opE_ids_cases hi with rfl | hx | hy
                        · omega
                        · rw [hfa] at hx
                          simp [exprIds] at hx
                          omega
                        · have := hia2 i hy; omega
                      · have := ihr.2 e2 he2 i hi; omega
                  next => simp at h
              next => simp at h
          · simp [fix_indxqual_sublist] at h
      | varE i2 v va vt => simp [fix_indxqual_sublist] at h
      | constE i2 cv cn ct => simp [fix_indxqual_sublist] at h
      | paramE i2 p => simp [fix_indxqual_sublist] at h
      | subplanE i2 p => simp [fix_indxqual_sublist] at h
      | boolAnd i2 args => simp [fix_indxqual_sublist] at h
      | boolOr i2 args => simp [fix_indxqual_sublist] at h
      | funcE i2 ff rt args => simp [fix_indxqual_sublist] at h
      | relabelE i2 a rt => simp [fix_indxqual_sublist] at h

/-- Freshness of `fix_indxqual_references`: every identity tag in the
rewritten (fixed) index quals is at least the starting counter. -/
theorem fix_indxqual_references_fresh (cat : Catalog) (b : Nat) :
    ∀ (iqs : List (List Expr)) (ixinfo : List IndexOptInfo) (c : Nat)
      (fixed recheck : List (List Expr)) (c' : Nat),
      fix_indxqual_references cat c iqs b ixinfo = some ((fixed, recheck), c') →
      c ≤ c' ∧ ∀ sub ∈ fixed, ∀ e ∈ sub, ∀ i ∈ exprIds e, c ≤ i := by
  intro iqs
  induction iqs with
  | nil =>
      intro ixinfo c fixed recheck c' h
      simp only [fix_indxqual_references, Option.some.injEq, Prod.mk.injEq] at h
      obtain ⟨⟨h1, h2⟩, h3⟩ := h
      subst h1; subst h3
      exact ⟨le_refl _, by simp⟩
  | cons iq rest ih =>
      intro ixinfo c fixed recheck c' h
      cases ixinfo with
      | nil => simp [fix_indxqual_references] at h
      | cons ixh ixrest =>
          simp only [fix_indxqual_references] at h
          split at h
          next fqh rqh c1 heq =>
            split at h
            next fqs rqs c2 heq2 =>
              simp only [Option.some.injEq, Prod.mk.injEq] at h
              obtain ⟨⟨h1, h2⟩, h3⟩ := h
              subst h1; subst h3
              have hs := fix_indxqual_sublist_fresh cat b ixh iq c fqh rqh c1 heq
              have ihr := ih ixrest c1 fqs rqs c2 heq2
              constructor
              · omega
              · intro sub hsub e he i hi
                simp only [List.mem_cons] at hsub
                rcases hsub with rfl | hsub
                · exact hs.2 e he i hi
                · have := ihr.2 sub hsub e he i hi; omega
            next => simp at h
          next => simp at h

/-- The claim C9 as amended: the rewritten `indxqual` is built from fresh
nodes only, so whenever the original qual trees carry tags below the
allocation counter it shares no subnode with them; the commuted merge/hash
clauses, however, only get a fresh top node (with `opfuncid` cleared) and
share their argument subtrees with the original clause — the original is
not modified, but its arguments are shared, not copied. -/
theorem claim_C9_sharing (cat : Catalog) :
    (∀ (iqs : List (List Expr)) ixinfo b c fixed recheck c',
      fix_indxqual_references cat c iqs b ixinfo = some ((fixed, recheck), c') →
      (∀ sub ∈ fixed, ∀ e ∈ sub, ∀ i ∈ exprIds e, c ≤ i) ∧
      ((∀ sub0 ∈ iqs, ∀ e0 ∈ sub0, ∀ i ∈ exprIds e0, i < c) →
        ∀ sub ∈ fixed, ∀ e ∈ sub, ∀ sub0 ∈ iqs, ∀ e0 ∈ sub0,
          ∀ i ∈ exprIds e, i ∉ exprIds e0)) ∧
    (∀ outerrelids clauses c out c2 k ri eo opno opf rt rs a b2,
      get_switched_clauses cat c clauses outerrelids = some (out, c2) →
      clauses.get? k = some ri →
      ri.clause = .opE eo opno opf rt rs [a, b2] →
      is_subseti ri.right_relids outerrelids = true →
      ∃ e, out.get? k = some (.opE e (cat.get_commutator opno) 0 rt rs [b2, a])) := by
  constructor
  · intro iqs ixinfo b c fixed recheck c' h
    have hf := fix_indxqual_references_fresh cat b iqs ixinfo c fixed recheck c' h
    refine ⟨hf.2, ?_⟩
    intro hbelow sub hsub e he sub0 hsub0 e0 he0 i hi hmem
    have h1 := hf.2 sub hsub e he i hi
    have h2 := hbelow sub0 hsub0 e0 he0 i hmem
    omega
  · intro outerrelids clauses c out c2 k ri eo opno opf rt rs a b2 h hk hcl hsub
    have hspec := get_switched_clauses_spec cat outerrelids clauses c out c2 h
    obtain ⟨e, eo2, opno2, opf2, rt2, rs2, a2, b3, hcl2, hout⟩ :=
      (hspec.2 k ri hk).2 hsub
    rw [hcl] at hcl2
    injection hcl2 with h1 h2 h3 h4 h5 h6
    injection h6 with h7 h8
    injection h8 with h9 h10
    subst h2; subst h4; subst h5; subst h7; subst h9
    exact ⟨e, hout⟩

/-- Counterexample for C9 as stated: the commuted clause produced by
`get_switched_clauses` from `ri1c` contains the original argument node
(identity tag 101) — the commuted merge/hash clauses do share subnodes
with the original Path clause. -/
theorem claim_C9_counterexample :
    101 ∈ exprIds (swOut.1.headD default) ∧ 101 ∈ exprIds ri1c.clause := by
  constructor
  · show 101 ∈ exprIds (Expr.opE 20 55 0 16 false
      [Expr.varE 102 1 1 25, Expr.varE 101 2 1 25])
    simp [exprIds, exprIdsList]
  · show 101 ∈ exprIds (Expr.opE 100 5 77 16 false
      [Expr.varE 101 2 1 25, Expr.varE 102 1 1 25])
    simp [exprIds, exprIdsList]

/-- Witness for the amended C9: a concrete lossy index qual rewritten from
counter 200; every identity tag of the fixed output is at least 200, hence
disjoint from the original tags (50, 51, 52). -/
theorem claim_C9_witness :
    fix_indxqual_references cat0 200 [[cl9]] 1 [ix9] =
      some (([[Expr.opE 200 7 9 16 false
                [Expr.varE 203 1 1 25, Expr.constE 202 42 false 23]]],
             [[Expr.opE 204 7 9 16 false
                [Expr.varE 205 1 3 25, Expr.constE 206 42 false 23]]]), 207) ∧
    ∀ sub ∈ [[Expr.opE 200 7 9 16 false
        [Expr.varE 203 1 1 25, Expr.constE 202 42 false 23]]],
      ∀ e ∈ sub, ∀ i ∈ exprIds e, 200 ≤ i := by
  have hh : fix_indxqual_references cat0 200 [[cl9]] 1 [ix9] =
      some (([[Expr.opE 200 7 9 16 false
                [Expr.varE 203 1 1 25, Expr.constE 202 42 false 23]]],
             [[Expr.opE 204 7 9 16 false
                [Expr.varE 205 1 3 25, Expr.constE 206 42 false 23]]]), 207) := by
    simp [fix_indxqual_references, fix_indxqual_sublist, fix_indxqual_operand,
      copyExpr, copyExprList, CommuteClause, pull_varnos, pullVarnosAcc,
      addVarno, cl9, ix9, cat0, exprType, List.findIdx?]
  refine ⟨hh, ?_⟩
  exact ((claim_C9_sharing cat0).1 [[cl9]] [ix9] 1 200 _ _ 207 hh).1

/-- A successful `fix_indxqual_operand` reports exactly the operator class
that `operandOpclass` computes on the same operand. -/
theorem fix_indxqual_operand_opclass (c : Nat) (x : Expr) (b : Nat)
    (ix : IndexOptInfo) (e' : Expr) (oc c' : Nat)
    (h : fix_indxqual_operand c x b ix = some ((e', oc), c')) :
    operandOpclass b ix x = some oc := by
  unfold fix_indxqual_operand at h
  unfold operandOpclass
  split at h <;> dsimp only at h ⊢ <;>
    (try split at h) <;> (try split at h) <;> (try split at h) <;>
    first
      | (simp only [Option.some.injEq, Prod.mk.injEq] at h
         simp_all)
      | simp at h

/-- `operandOpclass` ignores identity tags. -/
theorem operandOpclass_strip (b : Nat) (ix : IndexOptInfo) (x : Expr) :
    operandOpclass b ix (stripIds x) = operandOpclass b ix x := by
  cases x with
  | relabelE i a rt => cases a <;> simp [operandOpclass, stripIds, stripIdsList]
  | varE i v va vt => simp [operandOpclass, stripIds]
  | constE i cv cn ct => simp [operandOpclass, stripIds]
  | paramE i p => simp [operandOpclass, stripIds]
  | subplanE i p => simp [operandOpclass, stripIds]
  | boolAnd i args => simp [operandOpclass, stripIds]
  | boolOr i args => simp [operandOpclass, stripIds]
  | funcE i f rt args => simp [operandOpclass, stripIds]
  | opE i o f rt rs args => simp [operandOpclass, stripIds]

/-- Structurally equal operands get the same operator class. -/
theorem operandOpclass_of_strip_eq {b : Nat} {ix : IndexOptInfo} {x y : Expr}
    (h : stripIds x = stripIds y) :
    operandOpclass b ix x = operandOpclass b ix y := by
  rw [← operandOpclass_strip b ix x, ← operandOpclass_strip b ix y, h]

/-- Recheck characterization of `fix_indxqual_sublist`: the fixed list has
one clause per input clause, and the recheck list consists, in order, of
structural copies of exactly those input clauses whose rewritten operator
is lossy. -/
theorem fix_indxqual_sublist_recheck (cat : Catalog) (b : Nat) (ix : IndexOptInfo) :
    ∀ (iq : List Expr) (c : Nat) (fq rq : List Expr) (c' : Nat),
      fix_indxqual_sublist cat c iq b ix = some ((fq, rq), c') →
      fq.length = iq.length ∧
      rq.map stripIds =
        (iq.filter (fun cl => clauseRewrittenLossy cat b ix cl)).map stripIds := by
  intro iq
  induction iq with
  | nil =>
      intro c fq rq c' h
      simp only [fix_indxqual_sublist, Option.some.injEq, Prod.mk.injEq] at h
      obtain ⟨⟨h1, h2⟩, h3⟩ := h
      subst h1; subst h2
      simp
  | cons clause rest ih =>
      intro c fq rq c' h
      cases clause with
      | opE e o f rt rs args =>
          rcases args with _ | ⟨a1, _ | ⟨a2, _ | ⟨a3, args3⟩⟩⟩
          · simp [fix_indxqual_sublist] at h
          · simp [fix_indxqual_sublist] at h
          case cons.cons.nil =>
            simp only [fix_indxqual_sublist] at h
            have hpv : pull_varnos (copyExpr (c+1) a1).1 = pull_varnos a1 :=
              pull_varnos_of_strip_eq (stripIds_copyExpr (c+1) a1)
            by_cases hcomm : ((pull_varnos (copyExpr (c + 1) a1).1).length ≠ 1 ∨
                (pull_varnos (copyExpr (c + 1) a1).1).headD 0 ≠ b)
            · rw [if_pos hcomm] at h
              simp only [CommuteClause] at h
              rw [hpv] at hcomm
              have hb : (decide ((pull_varnos a1).length ≠ 1 ∨
                  (pull_varnos a1).headD 0 ≠ b)) = true := decide_eq_true hcomm
              split at h
              next fixedArg opclass c3 heq =>
                have hopc : operandOpclass b ix a2 = some opclass :=
                  (operandOpclass_of_strip_eq
                    (stripIds_copyExpr ((copyExpr (c+1) a1).2) a2)).symm.trans
                    (fix_indxqual_operand_opclass _ _ _ _ _ _ _ heq)
                split at h
                next hlossy =>
                  split at h
                  next fqr rqr c5 heq2 =>
                    have ihr := ih _ fqr rqr c5 heq2
                    simp only [Option.some.injEq, Prod.mk.injEq] at h
                    obtain ⟨⟨hfq, hrq⟩, hc5⟩ := h
                    subst hfq; subst hrq
                    have hcl : clauseRewrittenLossy cat b ix
                        (Expr.opE e o f rt rs [a1, a2]) = true := by
                      simp only [clauseRewrittenLossy, hb, if_true, hopc]
                      exact hlossy
                    constructor
                    · simp [ihr.1]
                    · rw [List.filter_cons_of_pos hcl]
                      simp only [List.map_cons]
                      rw [stripIds_copyExpr, ihr.2]
                  next => simp at h
                next hlossy =>
                  split at h
                  next fqr rqr c5 heq2 =>
                    have ihr := ih _ fqr rqr c5 heq2
                    simp only [Option.some.injEq, Prod.mk.injEq] at h
                    obtain ⟨⟨hfq, hrq⟩, hc5⟩ := h
                    subst hfq; subst hrq
                    have hcl : clauseRewrittenLossy cat b ix
                        (Expr.opE e o f rt rs [a1, a2]) = false := by
                      simp only [clauseRewrittenLossy, hb, if_true, hopc]
                      simpa using hlossy
                    constructor
                    · simp [ihr.1]
                    · rw [List.filter_cons_of_neg (by simp [hcl])]
                      exact ihr.2
                  next => simp at h
              next => simp at h
            · rw [if_neg hcomm] at h
              dsimp only at h
              rw [hpv] at hcomm
              have hb : (decide ((pull_varnos a1).length ≠ 1 ∨
                  (pull_varnos a1).headD 0 ≠ b)) = false := by
                simpa using hcomm
              split at h
              next fixedArg opclass c3 heq =>
                have hopc : operandOpclass b ix a1 = some opclass := by
                  exact (operandOpclass_of_strip_eq
                    (stripIds_copyExpr (c+1) a1)).symm.trans
                    (fix_indxqual_operand_opclass _ _ _ _ _ _ _ heq)
                split at h
                next hlossy =>
                  split at h
                  next fqr rqr c5 heq2 =>
                    have ihr := ih _ fqr rqr c5 heq2
                    simp only [Option.some.injEq, Prod.mk.injEq] at h
                    obtain ⟨⟨hfq, hrq⟩, hc5⟩ := h
                    subst hfq; subst hrq
                    have hcl : clauseRewrittenLossy cat b ix
                        (Expr.opE e o f rt rs [a1, a2]) = true := by
                      simp only [clauseRewrittenLossy, hb, Bool.false_eq_true,
                        if_false, hopc]
                      exact hlossy
                    constructor
                    · simp [ihr.1]
                    · rw [List.filter_cons_of_pos hcl]
                      simp only [List.map_cons]
                      rw [stripIds_copyExpr, ihr.2]
                  next => simp at h
                next hlossy =>
                  split at h
                  next fqr rqr c5 heq2 =>
                    have ihr := ih _ fqr rqr c5 heq2
                    simp only [Option.some.injEq, Prod.mk.injEq] at h
                    obtain ⟨⟨hfq, hrq⟩, hc5⟩ := h
                    subst hfq; subst hrq
                    have hcl : clauseRewrittenLossy cat b ix
                        (Expr.opE e o f rt rs [a1, a2]) = false := by
                      simp only [clauseRewrittenLossy, hb, Bool.false_eq_true,
                        if_false, hopc]
                      simpa using hlossy
                    constructor
                    · simp [ihr.1]
                    · rw [List.filter_cons_of_neg (by simp [hcl])]
                      exact ihr.2
                  next => simp at h
              next => simp at h
          · simp [fix_indxqual_sublist] at h
      | varE i2 v va vt => simp [fix_indxqual_sublist] at h
      | constE i2 cv cn ct => simp [fix_indxqual_sublist] at h
      | paramE i2 p => simp [fix_indxqual_sublist] at h
      | subplanE i2 p => simp [fix_indxqual_sublist] at h
      | boolAnd i2 args => simp [fix_indxqual_sublist] at h
      | boolOr i2 args => simp [fix_indxqual_sublist] at h
      | funcE i2 ff rt args => simp [fix_indxqual_sublist] at h
      | relabelE i2 a rt => simp [fix_indxqual_sublist] at h

/-- C7 (amended): `fix_indxqual_references` produces one fixed sublist per
input sublist, but the recheck list is NOT positionally aligned: there is a
positionally aligned list `rs` of per-scan recheck sublists — each holding
structural copies of exactly the lossy clauses of the corresponding input
sublist — and the returned recheck list is `rs` with the empty sublists
dropped. -/
theorem claim_C7_recheck (cat : Catalog) (b : Nat) :
    ∀ (iqs : List (List Expr)) (ixinfo : List IndexOptInfo) (c : Nat)
      (fixed recheck : List (List Expr)) (c' : Nat),
      fix_indxqual_references cat c iqs b ixinfo = some ((fixed, recheck), c') →
      fixed.length = iqs.length ∧
      ∃ rs : List (List Expr),
        rs.length = iqs.length ∧
        recheck = rs.filter (fun r => !r.isEmpty) ∧
        ∀ (k : Nat) (iq : List Expr) (ixk : IndexOptInfo),
          iqs[k]? = some iq → ixinfo[k]? = some ixk →
          (rs.getD k []).map stripIds =
            (iq.filter (fun cl => clauseRewrittenLossy cat b ixk cl)).map stripIds := by
  intro iqs
  induction iqs with
  | nil =>
      intro ixinfo c fixed recheck c' h
      simp only [fix_indxqual_references, Option.some.injEq, Prod.mk.injEq] at h
      obtain ⟨⟨h1, h2⟩, h3⟩ := h
      subst h1; subst h2
      refine ⟨rfl, [], rfl, rfl, ?_⟩
      intro k iq ixk h1 h2
      simp at h1
  | cons iq rest ih =>
      intro ixinfo c fixed recheck c' h
      cases ixinfo with
      | nil => simp [fix_indxqual_references] at h
      | cons ixh ixrest =>
          simp only [fix_indxqual_references] at h
          split at h
          next fq rq c1 heq1 =>
            split at h
            next fqs rqs c2 heq2 =>
              simp only [Option.some.injEq, Prod.mk.injEq] at h
              obtain ⟨⟨hfix, hrec⟩, hc⟩ := h
              subst hfix; subst hrec
              have hsub := fix_indxqual_sublist_recheck cat b ixh iq c fq rq c1 heq1
              obtain ⟨hlen, rs', hrs'len, hrq, hpt⟩ := ih ixrest c1 fqs rqs c2 heq2
              refine ⟨by simp [hsub.1, hlen], rq :: rs', by simp [hrs'len], ?_, ?_⟩
              · rw [List.filter_cons]
                by_cases he : rq.isEmpty
                · simp [he, hrq]
                · simp [he, hrq]
              · intro k iq' ixk' h1 h2
                cases k with
                | zero =>
                    simp only [List.getElem?_cons_zero, Option.some.injEq] at h1 h2
                    subst h1; subst h2
                    simpa using hsub.2
                | succ k =>
                    simp only [List.getElem?_cons_succ] at h1 h2
                    simpa [List.getD_cons_succ] using hpt k iq' ixk' h1 h2
            next => simp at h
          next => simp at h

/-- C7 counterexample: with two index scans where only the second has a
lossy clause, the fixed list has two sublists but the recheck list has only
one — the empty per-scan slot is dropped, so the recheck list is not
positionally aligned with the fixed index quals. -/
theorem claim_C7_counterexample :
    (fix_indxqual_references cat0 300 [[cl8], [cl9]] 1 [ix9, ix9]).map
      (fun r => (r.1.1.length, r.1.2.length)) = some (2, 1) := by
  simp [fix_indxqual_references, fix_indxqual_sublist, fix_indxqual_operand,
    copyExpr, copyExprList, CommuteClause, pull_varnos, pullVarnosAcc,
    addVarno, cl8, cl9, ix9, cat0, exprType, List.findIdx?]

/-- C7 witness: the amended characterization instantiated on the concrete
two-scan input. -/
theorem claim_C7_witness :
    fix_indxqual_references cat0 300 [[cl8], [cl9]] 1 [ix9, ix9] =
      some ((Fc7, Rc7), 311) ∧
    (Fc7.length = ([[cl8], [cl9]] : List (List Expr)).length ∧
      ∃ rs : List (List Expr),
        rs.length = ([[cl8], [cl9]] : List (List Expr)).length ∧
        Rc7 = rs.filter (fun r => !r.isEmpty) ∧
        ∀ (k : Nat) (iq : List Expr) (ixk : IndexOptInfo),
          ([[cl8], [cl9]] : List (List Expr))[k]? = some iq →
          ([ix9, ix9] : List IndexOptInfo)[k]? = some ixk →
          (rs.getD k []).map stripIds =
            (iq.filter (fun cl => clauseRewrittenLossy cat0 1 ixk cl)).map
              stripIds) := by
  have hh : fix_indxqual_references cat0 300 [[cl8], [cl9]] 1 [ix9, ix9] =
      some ((Fc7, Rc7), 311) := by
    simp [fix_indxqual_references, fix_indxqual_sublist, fix_indxqual_operand,
      copyExpr, copyExprList, CommuteClause, pull_varnos, pullVarnosAcc,
      addVarno, cl8, cl9, ix9, cat0, exprType, List.findIdx?, Fc7, Rc7]
  exact ⟨hh, claim_C7_recheck cat0 1 [[cl8], [cl9]] [ix9, ix9] 300 Fc7 Rc7 311 hh⟩

/-- The recheck list never has more sublists than the input had. -/
theorem fix_indxqual_references_recheck_len (cat : Catalog) (b : Nat) :
    ∀ (iqs : List (List Expr)) (ixinfo : List IndexOptInfo) (c : Nat)
      (fixed recheck : List (List Expr)) (c' : Nat),
      fix_indxqual_references cat c iqs b ixinfo = some ((fixed, recheck), c') →
      recheck.length ≤ iqs.length := by
  intro iqs
  induction iqs with
  | nil =>
      intro ixinfo c fixed recheck c' h
      simp only [fix_indxqual_references, Option.some.injEq, Prod.mk.injEq] at h
      obtain ⟨⟨h1, h2⟩, h3⟩ := h
      subst h2
      simp
  | cons iq rest ih =>
      intro ixinfo c fixed recheck c' h
      cases ixinfo with
      | nil => simp [fix_indxqual_references] at h
      | cons ixh ixrest =>
          simp only [fix_indxqual_references] at h
          split at h
          next fq rq c1 heq1 =>
            split at h
            next fqs rqs c2 heq2 =>
              simp only [Option.some.injEq, Prod.mk.injEq] at h
              obtain ⟨⟨hfix, hrec⟩, hc⟩ := h
              subst hrec
              have := ih ixrest c1 fqs rqs c2 heq2
              by_cases he : rq.isEmpty <;> simp [he] <;> omega
            next => simp at h
          next => simp at h

/-- A per-sublist recheck list is non-empty exactly when some clause of the
input sublist is rewritten with a lossy operator. -/
theorem fix_indxqual_sublist_lossy_iff (cat : Catalog) (b : Nat)
    (ix : IndexOptInfo) (iq : List Expr) (c : Nat) (fq rq : List Expr)
    (c' : Nat) (h : fix_indxqual_sublist cat c iq b ix = some ((fq, rq), c')) :
    rq ≠ [] ↔ ∃ cl ∈ iq, clauseRewrittenLossy cat b ix cl = true := by
  have h2 := (fix_indxqual_sublist_recheck cat b ix iq c fq rq c' h).2
  constructor
  · intro hne
    by_contra hno
    push_neg at hno
    have hfil : iq.filter (fun cl => clauseRewrittenLossy cat b ix cl) = [] :=
      List.filter_eq_nil_iff.mpr (by simpa using hno)
    rw [hfil] at h2
    simp at h2
    exact hne h2
  · intro ⟨cl, hmem, hlossy⟩ hrq
    rw [hrq] at h2
    have : iq.filter (fun cl => clauseRewrittenLossy cat b ix cl) = [] := by
      cases hfe : iq.filter (fun cl => clauseRewrittenLossy cat b ix cl) with
      | nil => rfl
      | cons x xs => rw [hfe] at h2; simp at h2
    have := List.filter_eq_nil_iff.mp this cl hmem
    simp [hlossy] at this

/-- The recheck list is non-empty exactly when some input clause of some
scan is rewritten with a lossy operator. -/
theorem fix_indxqual_references_lossy_iff (cat : Catalog) (b : Nat) :
    ∀ (iqs : List (List Expr)) (ixinfo : List IndexOptInfo) (c : Nat)
      (fixed recheck : List (List Expr)) (c' : Nat),
      fix_indxqual_references cat c iqs b ixinfo = some ((fixed, recheck), c') →
      (recheck ≠ [] ↔
        ∃ (k : Nat) (iq : List Expr) (ixk : IndexOptInfo),
          iqs[k]? = some iq ∧ ixinfo[k]? = some ixk ∧
          ∃ cl ∈ iq, clauseRewrittenLossy cat b ixk cl = true) := by
  intro iqs
  induction iqs with
  | nil =>
      intro ixinfo c fixed recheck c' h
      simp only [fix_indxqual_references, Option.some.injEq, Prod.mk.injEq] at h
      obtain ⟨⟨h1, h2⟩, h3⟩ := h
      subst h2
      simp
  | cons iq rest ih =>
      intro ixinfo c fixed recheck c' h
      cases ixinfo with
      | nil => simp [fix_indxqual_references] at h
      | cons ixh ixrest =>
          simp only [fix_indxqual_references] at h
          split at h
          next fq rq c1 heq1 =>
            split at h
            next fqs rqs c2 heq2 =>
              simp only [Option.some.injEq, Prod.mk.injEq] at h
              obtain ⟨⟨hfix, hrec⟩, hc⟩ := h
              subst hrec
              have hsub := fix_indxqual_sublist_lossy_iff cat b ixh iq c fq rq
                c1 heq1
              have hrest := ih ixrest c1 fqs rqs c2 heq2
              constructor
              · intro hne
                by_cases he : rq.isEmpty
                · rw [if_pos he] at hne
                  obtain ⟨k, iq', ixk, h1, h2, h3⟩ := hrest.mp hne
                  exact ⟨k + 1, iq', ixk, by simpa using h1, by simpa using h2,
                    h3⟩
                · have : rq ≠ [] := by simpa [List.isEmpty_iff] using he
                  obtain ⟨cl, hmem, hlossy⟩ := hsub.mp this
                  exact ⟨0, iq, ixh, by simp, by simp, cl, hmem, hlossy⟩
              · intro ⟨k, iq', ixk, h1, h2, h3⟩
                cases k with
                | zero =>
                    simp only [List.getElem?_cons_zero, Option.some.injEq]
                      at h1 h2
                    subst h1; subst h2
                    have hne : rq ≠ [] := hsub.mpr h3
                    have he : rq.isEmpty = false := by
                      simpa [List.isEmpty_iff] using hne
                    rw [he]
                    simp
                | succ k =>
                    simp only [List.getElem?_cons_succ] at h1 h2
                    have hne : rqs ≠ [] := hrest.mpr ⟨k, iq', ixk, h1, h2, h3⟩
                    by_cases he : rq.isEmpty
                    · rw [if_pos he]; exact hne
                    · rw [if_neg he]; simp
            next => simp at h
          next => simp at h

/-- C1: the qpqual of a constructed IndexScan is computed by cases on the
number of indexqual sublists: with more than one, the scan clauses minus
(by node identity) the explicit OR-of-ANDs expression; with exactly one,
the scan clauses minus that sublist; with zero, the scan clauses unchanged.
When the rewriter found a lossy operator — equivalently, when the recheck
list is non-empty — a deep copy of the OR-of-ANDs expression is appended in
the multi-sublist case, and the (already copied) recheck clauses of the
single sublist are appended directly in the single-sublist case. -/
theorem claim_C1_qpqual (cat : Catalog) (c : Nat) (bp : IndexPath)
    (tlist : List TargetEntry) (sc : List Expr) (pl : Plan) (cOut : Nat)
    (h : create_indexscan_plan cat c bp tlist sc = some (pl, cOut)) :
    ∃ (fixed recheck : List (List Expr)) (c2 : Nat),
      fix_indxqual_references cat
          (if bp.indexqual.length > 1 then (build_or_expr c bp.indexqual).2
           else c)
          bp.indexqual (bp.parent.relids.headD 0) bp.indexinfo =
        some ((fixed, recheck), c2) ∧
      (recheck ≠ [] ↔
        ∃ (k : Nat) (iq : List Expr) (ixk : IndexOptInfo),
          bp.indexqual[k]? = some iq ∧ bp.indexinfo[k]? = some ixk ∧
          ∃ cl ∈ iq,
            clauseRewrittenLossy cat (bp.parent.relids.headD 0) ixk cl
              = true) ∧
      (bp.indexqual.length > 1 →
        pl.qual = (if recheck.isEmpty
          then set_difference sc [(build_or_expr c bp.indexqual).1]
          else set_difference sc [(build_or_expr c bp.indexqual).1] ++
            [(copyExpr c2 (build_or_expr c bp.indexqual).1).1])) ∧
      (bp.indexqual.length = 1 →
        recheck.length ≤ 1 ∧
        pl.qual = (if recheck.isEmpty
          then set_difference sc (bp.indexqual.headD [])
          else set_difference sc (bp.indexqual.headD []) ++
            recheck.headD [])) ∧
      (bp.indexqual = [] → pl.qual = sc) := by
  rcases Nat.lt_or_ge 1 bp.indexqual.length with hgt | hle
  · simp only [create_indexscan_plan] at h
    rw [if_pos hgt] at h
    (try dsimp only at h)
    split at h
    next => simp at h
    next fixed recheck c2 heq =>
      injection h with h1
      injection h1 with hpl hc
      subst hpl
      refine ⟨fixed, recheck, c2, ?_, ?_, ?_, ?_, ?_⟩
      · rw [if_pos hgt]; exact heq
      · exact fix_indxqual_references_lossy_iff cat _ _ _ _ _ _ _ heq
      · intro _
        by_cases hre : recheck.isEmpty
        · rw [if_pos hre]
          simp [Plan.qual, make_indexscan, Plan.withCost, hre]
        · rw [if_neg hre]
          simp [Plan.qual, make_indexscan, Plan.withCost, hre]
      · intro h1; omega
      · intro h1; rw [h1] at hgt; simp at hgt
  · cases hiq : bp.indexqual with
    | nil =>
        simp only [create_indexscan_plan] at h
        rw [hiq] at h
        rw [if_neg (by simp), if_pos (by simp)] at h
        (try dsimp only at h)
        simp only [fix_indxqual_references] at h
        (try dsimp only at h)
        rw [if_pos (show (([] : List (List Expr)).isEmpty) = true from rfl)]
          at h
        (try dsimp only at h)
        injection h with h1
        injection h1 with hpl hc
        subst hpl
        refine ⟨[], [], c, ?_, ?_, ?_, ?_, ?_⟩
        · simp [fix_indxqual_references]
        · simp
        · intro h1; simp at h1
        · intro h1; simp at h1
        · intro _
          simp [Plan.qual, make_indexscan, Plan.withCost]
    | cons q rest =>
        have hrest : rest = [] := by
          have h2 := hle
          rw [hiq] at h2
          simp only [List.length_cons, ge_iff_le] at h2
          have h0 : rest.length = 0 := by omega
          exact List.eq_nil_of_length_eq_zero h0
        subst hrest
        simp only [create_indexscan_plan] at h
        rw [hiq] at h
        rw [if_neg (by simp), if_neg (by simp)] at h
        (try dsimp only at h)
        split at h
        next => simp at h
        next fixed recheck c2 heq =>
          injection h with h1
          injection h1 with hpl hc
          subst hpl
          refine ⟨fixed, recheck, c2, ?_, ?_, ?_, ?_, ?_⟩
          · rw [if_neg (by simp)]; exact heq
          · exact fix_indxqual_references_lossy_iff cat _ _ _ _ _ _ _ heq
          · intro h1; simp at h1
          · intro _
            refine ⟨?_, ?_⟩
            · have h3 := fix_indxqual_references_recheck_len cat
                (bp.parent.relids.headD 0) [q] bp.indexinfo c fixed recheck
                c2 heq
              simpa using h3
            · by_cases hre : recheck.isEmpty
              · rw [if_pos hre]
                simp [Plan.qual, make_indexscan, Plan.withCost, hre]
              · rw [if_neg hre]
                simp [Plan.qual, make_indexscan, Plan.withCost, hre]
          · intro h1; simp at h1

/-- C1 witness: the qpqual case analysis instantiated on the concrete
single-sublist index path with a lossy operator. -/
theorem claim_C1_witness :
    create_indexscan_plan cat0 200 bp1 [] [cl9] = some (P1c1, 207) ∧
    (∃ (fixed recheck : List (List Expr)) (c2 : Nat),
      fix_indxqual_references cat0
          (if bp1.indexqual.length > 1 then (build_or_expr 200 bp1.indexqual).2
           else 200)
          bp1.indexqual (bp1.parent.relids.headD 0) bp1.indexinfo =
        some ((fixed, recheck), c2) ∧
      (recheck ≠ [] ↔
        ∃ (k : Nat) (iq : List Expr) (ixk : IndexOptInfo),
          bp1.indexqual[k]? = some iq ∧ bp1.indexinfo[k]? = some ixk ∧
          ∃ cl ∈ iq,
            clauseRewrittenLossy cat0 (bp1.parent.relids.headD 0) ixk cl
              = true) ∧
      (bp1.indexqual.length > 1 →
        P1c1.qual = (if recheck.isEmpty
          then set_difference [cl9] [(build_or_expr 200 bp1.indexqual).1]
          else set_difference [cl9] [(build_or_expr 200 bp1.indexqual).1] ++
            [(copyExpr c2 (build_or_expr 200 bp1.indexqual).1).1])) ∧
      (bp1.indexqual.length = 1 →
        recheck.length ≤ 1 ∧
        P1c1.qual = (if recheck.isEmpty
          then set_difference [cl9] (bp1.indexqual.headD [])
          else set_difference [cl9] (bp1.indexqual.headD []) ++
            recheck.headD [])) ∧
      (bp1.indexqual = [] → P1c1.qual = [cl9])) := by
  have hh : create_indexscan_plan cat0 200 bp1 [] [cl9] = some (P1c1, 207) := by
    simp [create_indexscan_plan, fix_indxqual_references, fix_indxqual_sublist,
      fix_indxqual_operand, copyExpr, copyExprList, CommuteClause, pull_varnos,
      pullVarnosAcc, addVarno, cl9, ix9, cat0, exprType, List.findIdx?, bp1,
      P1c1, set_difference, make_indexscan, Plan.withCost, build_or_expr,
      make_ands_explicit, make_orclause]
  exact ⟨hh, claim_C1_qpqual cat0 200 bp1 [] [cl9] P1c1 207 hh⟩

theorem keysOf_append (l1 l2 : List TargetEntry) :
    keysOf (l1 ++ l2) = keysOf l1 ++ keysOf l2 := by
  simp [keysOf, List.filter_append]

theorem keysOf_all_zero (l : List TargetEntry)
    (h : ∀ te ∈ l, te.resdom.reskey = 0) : keysOf l = [] := by
  unfold keysOf
  rw [List.filter_eq_nil_iff.mpr (by intro te hte; simp [h te hte])]
  rfl

theorem new_unsorted_zero (tl : List TargetEntry) :
    ∀ te ∈ new_unsorted_tlist tl, te.resdom.reskey = 0 := by
  intro te hte
  simp only [new_unsorted_tlist, List.mem_map] at hte
  obtain ⟨u, _, rfl⟩ := hte
  rfl

theorem findMemberItem_mem (ks : List PathKeyItem) (stl : List TargetEntry)
    (pk : PathKeyItem) (idx : Nat)
    (h : findMemberItem ks stl = some (pk, idx)) : pk ∈ ks := by
  induction ks with
  | nil => simp [findMemberItem] at h
  | cons x xs ih =>
      simp only [findMemberItem] at h
      split at h
      · simp only [Option.some.injEq, Prod.mk.injEq] at h
        simp [h.1]
      · exact List.mem_cons_of_mem _ (ih h)

theorem keysOf_cons (x : TargetEntry) (xs : List TargetEntry) :
    keysOf (x :: xs) = if x.resdom.reskey = 0 then keysOf xs
      else x.resdom.reskey :: keysOf xs := by
  unfold keysOf
  rw [List.filter_cons]
  by_cases hx : x.resdom.reskey = 0
  · simp [hx]
  · simp [hx]

theorem keysOf_set (l : List TargetEntry) :
    ∀ (idx : Nat) (te te' : TargetEntry), l.get? idx = some te →
      te.resdom.reskey = 0 → te'.resdom.reskey ≠ 0 →
      (keysOf (l.set idx te')).Perm (te'.resdom.reskey :: keysOf l) := by
  induction l with
  | nil => intro idx te te' h; simp at h
  | cons x xs ih =>
      intro idx te te' h hz hnz
      cases idx with
      | zero =>
          simp only [List.get?_cons_zero, Option.some.injEq] at h
          subst h
          simp only [List.set_cons_zero]
          rw [keysOf_cons, keysOf_cons, if_neg hnz, if_pos hz]
      | succ idx =>
          simp only [List.get?_cons_succ] at h
          simp only [List.set_cons_succ]
          rw [keysOf_cons, keysOf_cons]
          by_cases hx : x.resdom.reskey = 0
          · rw [if_pos hx, if_pos hx]
            exact ih idx te te' h hz hnz
          · rw [if_neg hx, if_neg hx]
            exact ((ih idx te te' h hz hnz).cons _).trans
              (List.Perm.swap _ _ _)

theorem assignSortKey_inv (ops : List Nat) (st : SortState) (idx : Nat)
    (pk : PathKeyItem) (hop : pk.sortop ∈ ops) (hinv : SortInv ops st) :
    SortInv ops (assignSortKey st idx pk) := by
  unfold assignSortKey
  cases hg : st.sort_tlist.get? idx with
  | none => exact hinv
  | some te =>
      dsimp only
      by_cases hz : te.resdom.reskey = 0
      · rw [if_pos hz]
        constructor
        · have hperm := keysOf_set st.sort_tlist idx te
            { te with resdom := { te.resdom with
                reskey := st.numsortkeys + 1, reskeyop := pk.sortop } }
            hg hz (by simp)
          refine hperm.trans ?_
          refine (hinv.1.cons _).trans ?_
          rw [List.range'_concat]
          simpa [Nat.add_comm] using
            (List.perm_append_singleton _ _).symm
        · intro u hu hnz
          rcases List.mem_or_eq_of_mem_set hu with hmem | rfl
          · exact hinv.2 u hmem hnz
          · simpa using hop
      · rw [if_neg hz]
        exact hinv

theorem assignSortKey_ge (st : SortState) (idx : Nat) (pk : PathKeyItem) :
    st.numsortkeys ≤ (assignSortKey st idx pk).numsortkeys := by
  unfold assignSortKey
  cases st.sort_tlist.get? idx with
  | none => exact le_refl _
  | some te =>
      dsimp only
      by_cases hz : te.resdom.reskey = 0
      · rw [if_pos hz]; simp
      · rw [if_neg hz]

theorem SortInv_parts (ops : List Nat) (st st' : SortState)
    (h1 : st'.sort_tlist = st.sort_tlist)
    (h2 : st'.numsortkeys = st.numsortkeys)
    (hinv : SortInv ops st) : SortInv ops st' := by
  unfold SortInv at *
  rw [h1, h2]
  exact hinv

theorem SortInv_concat_zero (ops : List Nat) (st st' : SortState)
    (e : TargetEntry)
    (h1 : st'.sort_tlist = st.sort_tlist ++ [e])
    (he : e.resdom.reskey = 0)
    (h2 : st'.numsortkeys = st.numsortkeys)
    (hinv : SortInv ops st) : SortInv ops st' := by
  unfold SortInv at *
  constructor
  · rw [h1, h2, keysOf_append, keysOf_all_zero [e] (by simp [he]),
      List.append_nil]
    exact hinv.1
  · intro te hte hnz
    rw [h1] at hte
    rcases List.mem_append.mp hte with hm | hm
    · exact hinv.2 te hm hnz
    · simp only [List.mem_singleton] at hm
      subst hm
      exact absurd he hnz

theorem tlist_member_lt (key : Expr) :
    ∀ (stl : List TargetEntry) (idx : Nat),
      tlist_member key stl = some idx → idx < stl.length := by
  intro stl
  induction stl with
  | nil => intro idx h; simp [tlist_member] at h
  | cons te rest ih =>
      intro idx h
      simp only [tlist_member] at h
      split at h
      · injection h with h1
        subst h1
        simp
      · rcases Option.map_eq_some'.mp h with ⟨j, hj, rfl⟩
        have := ih j hj
        simp only [List.length_cons]
        omega

theorem findMemberItem_get (ks : List PathKeyItem) (stl : List TargetEntry)
    (pk : PathKeyItem) (idx : Nat)
    (h : findMemberItem ks stl = some (pk, idx)) :
    ∃ te, stl.get? idx = some te := by
  induction ks with
  | nil => simp [findMemberItem] at h
  | cons x xs ih =>
      simp only [findMemberItem] at h
      split at h
      next j hj =>
        simp only [Option.some.injEq, Prod.mk.injEq] at h
        obtain ⟨h1, h2⟩ := h
        subst h2
        have hlt := tlist_member_lt x.key stl j hj
        exact ⟨stl.get ⟨j, hlt⟩, List.get?_eq_get hlt⟩
      next => exact ih h

theorem assignSortKey_concat_pos (st' : SortState) (e : TargetEntry)
    (he : e.resdom.reskey = 0) (pk : PathKeyItem) (base : List TargetEntry)
    (hstl : st'.sort_tlist = base ++ [e]) :
    1 ≤ (assignSortKey st' (st'.sort_tlist.length - 1) pk).numsortkeys := by
  unfold assignSortKey
  rw [hstl]
  have hlen : (base ++ [e]).length - 1 = base.length := by simp
  rw [hlen, List.get?_concat_length]
  dsimp only
  rw [if_pos he]
  simp

theorem processPathkey_inv (cat : Catalog) (relids ops : List Nat)
    (st st2 : SortState) (ks : List PathKeyItem)
    (hks : ∀ pk ∈ ks, pk.sortop ∈ ops)
    (hinv : SortInv ops st)
    (h : processPathkey cat relids st ks = some st2) :
    SortInv ops st2 := by
  simp only [processPathkey] at h
  split at h
  next pk idx hfind =>
    injection h with h1
    subst h1
    exact assignSortKey_inv ops st idx pk
      (hks pk (findMemberItem_mem _ _ _ _ hfind)) hinv
  next hfind =>
    split at h
    next => simp at h
    next pk hfindq =>
      injection h with h1
      subst h1
      have hop : pk.sortop ∈ ops :=
        hks pk (List.mem_of_find?_eq_some hfindq)
      by_cases hap : st.lefttree.isAppend
      · rw [if_pos hap]
        exact assignSortKey_inv ops _ _ pk hop
          (SortInv_concat_zero ops st _ _ rfl rfl rfl hinv)
      · rw [if_neg hap]
        exact assignSortKey_inv ops _ _ pk hop
          (SortInv_concat_zero ops st _ _ rfl rfl rfl hinv)

theorem assignSortKey_ge_of_eq (st : SortState) (idx : Nat)
    (pk : PathKeyItem) (n : Nat) (h : n = st.numsortkeys) :
    n ≤ (assignSortKey st idx pk).numsortkeys :=
  h ▸ assignSortKey_ge st idx pk

theorem processPathkey_ge (cat : Catalog) (relids : List Nat)
    (st st2 : SortState) (ks : List PathKeyItem)
    (h : processPathkey cat relids st ks = some st2) :
    st.numsortkeys ≤ st2.numsortkeys := by
  simp only [processPathkey] at h
  split at h
  next pk idx hfind =>
    injection h with h1
    subst h1
    exact assignSortKey_ge st idx pk
  next hfind =>
    split at h
    next => simp at h
    next pk hfindq =>
      injection h with h1
      subst h1
      by_cases hap : st.lefttree.isAppend
      · rw [if_pos hap]
        exact assignSortKey_ge_of_eq _ _ pk st.numsortkeys rfl
      · rw [if_neg hap]
        exact assignSortKey_ge_of_eq _ _ pk st.numsortkeys rfl

theorem processPathkey_pos (cat : Catalog) (relids : List Nat)
    (st st2 : SortState) (ks : List PathKeyItem)
    (hz : ∀ te ∈ st.sort_tlist, te.resdom.reskey = 0)
    (h : processPathkey cat relids st ks = some st2) :
    1 ≤ st2.numsortkeys := by
  simp only [processPathkey] at h
  split at h
  next pk idx hfind =>
    injection h with h1
    subst h1
    obtain ⟨te, hte⟩ := findMemberItem_get _ _ _ _ hfind
    have hmem : te ∈ st.sort_tlist := List.get?_mem hte
    unfold assignSortKey
    rw [hte]
    dsimp only
    rw [if_pos (hz te hmem)]
    simp
  next hfind =>
    split at h
    next => simp at h
    next pk hfindq =>
      injection h with h1
      subst h1
      by_cases hap : st.lefttree.isAppend
      · rw [if_pos hap]
        refine assignSortKey_concat_pos _ _ ?_ pk st.sort_tlist rfl
        rfl
      · rw [if_neg hap]
        refine assignSortKey_concat_pos _ _ ?_ pk st.sort_tlist rfl
        rfl

theorem processPathkeys_inv (cat : Catalog) (relids ops : List Nat) :
    ∀ (pks : List (List PathKeyItem)) (st st2 : SortState),
      (∀ ks ∈ pks, ∀ pk ∈ ks, pk.sortop ∈ ops) → SortInv ops st →
      processPathkeys cat relids pks st = some st2 → SortInv ops st2 := by
  intro pks
  induction pks with
  | nil =>
      intro st st2 _ hinv h
      simp only [processPathkeys, Option.some.injEq] at h
      subst h
      exact hinv
  | cons ks rest ih =>
      intro st st2 hks hinv h
      simp only [processPathkeys] at h
      split at h
      next stm heq =>
        exact ih stm st2 (fun k hk => hks k (List.mem_cons_of_mem _ hk))
          (processPathkey_inv cat relids ops st stm ks
            (hks ks (List.mem_cons_self _ _)) hinv heq) h
      next => simp at h

theorem processPathkeys_ge (cat : Catalog) (relids : List Nat) :
    ∀ (pks : List (List PathKeyItem)) (st st2 : SortState),
      processPathkeys cat relids pks st = some st2 →
      st.numsortkeys ≤ st2.numsortkeys := by
  intro pks
  induction pks with
  | nil =>
      intro st st2 h
      simp only [processPathkeys, Option.some.injEq] at h
      subst h
      exact le_refl _
  | cons ks rest ih =>
      intro st st2 h
      simp only [processPathkeys] at h
      split at h
      next stm heq =>
        exact (processPathkey_ge cat relids st stm ks heq).trans
          (ih stm st2 h)
      next => simp at h

/-- C6: a Sort built by `make_sort_from_pathkeys` over non-empty pathkeys
with non-null sort operators has keycount `k` equal to the number of
assignments made, at least one; its target list's marked entries carry key
numbers that are exactly `1..k`, each used once, each with a non-null sort
operator taken from the pathkeys; and a pathkey whose chosen entry is
already marked is ignored, leaving the state unchanged. -/
theorem claim_C6_sort_keys (root : Query) (cat : Catalog) (lefttree : Plan)
    (relids : List Nat) (pathkeys : List (List PathKeyItem)) (pl : Plan)
    (hpk : pathkeys ≠ [])
    (hop : ∀ op ∈ sortopsOf pathkeys, op ≠ 0)
    (h : make_sort_from_pathkeys root cat lefttree relids pathkeys = some pl) :
    (∃ (cost : PlanCost) (stl : List TargetEntry) (k : Nat) (lt : Plan),
      pl = .sortPlan cost stl k lt ∧ 1 ≤ k ∧
      (keysOf stl).Perm (List.range' 1 k) ∧
      ∀ te ∈ stl, te.resdom.reskey ≠ 0 →
        te.resdom.reskeyop ∈ sortopsOf pathkeys ∧ te.resdom.reskeyop ≠ 0) ∧
    (∀ (st : SortState) (ks : List PathKeyItem) (pk : PathKeyItem)
        (idx : Nat) (te : TargetEntry),
      findMemberItem ks st.sort_tlist = some (pk, idx) →
      st.sort_tlist.get? idx = some te →
      te.resdom.reskey ≠ 0 →
      processPathkey cat relids st ks = some st) := by
  constructor
  · simp only [make_sort_from_pathkeys] at h
    split at h
    next st heq =>
      injection h with h1
      subst h1
      have hks : ∀ ks ∈ pathkeys, ∀ pk ∈ ks,
          pk.sortop ∈ sortopsOf pathkeys := by
        intro ks hk pk hp
        exact List.mem_map_of_mem _ (List.mem_flatten.mpr ⟨ks, hk, hp⟩)
      have hinit : SortInv (sortopsOf pathkeys)
          ⟨lefttree, lefttree.targetlist,
           new_unsorted_tlist lefttree.targetlist, 0⟩ := by
        constructor
        · rw [keysOf_all_zero _ (new_unsorted_zero _)]
          exact List.Perm.refl []
        · intro te hte hnz
          exact absurd (new_unsorted_zero _ te hte) hnz
      have hinv := processPathkeys_inv cat relids (sortopsOf pathkeys)
        pathkeys _ st hks hinit heq
      have hpos : 1 ≤ st.numsortkeys := by
        cases hp : pathkeys with
        | nil => exact absurd hp hpk
        | cons ks rest =>
            rw [hp] at heq
            simp only [processPathkeys] at heq
            split at heq
            next stm heqm =>
              refine le_trans (processPathkey_pos cat relids _ stm ks ?_ heqm)
                (processPathkeys_ge cat relids rest stm st heq)
              exact new_unsorted_zero _
            next => simp at heq
      refine ⟨_, st.sort_tlist, st.numsortkeys, st.lefttree, rfl, hpos,
        hinv.1, ?_⟩
      intro te hte hnz
      exact ⟨hinv.2 te hte hnz, hop _ (hinv.2 te hte hnz)⟩
    next => simp at h
  · intro st ks pk idx te hfind hte hnz
    simp only [processPathkey, hfind]
    unfold assignSortKey
    rw [hte]
    dsimp only
    rw [if_neg hnz]

/-- C6 witness: the sort-key invariant instantiated on the concrete child
plan `P6` and single-pathkey list `pks6`. -/
theorem claim_C6_witness :
    pks6 ≠ [] ∧ (∀ op ∈ sortopsOf pks6, op ≠ 0) ∧
    make_sort_from_pathkeys q6 cat0 P6 [1] pks6 = some S6 ∧
    ((∃ (cost : PlanCost) (stl : List TargetEntry) (k : Nat) (lt : Plan),
      S6 = .sortPlan cost stl k lt ∧ 1 ≤ k ∧
      (keysOf stl).Perm (List.range' 1 k) ∧
      ∀ te ∈ stl, te.resdom.reskey ≠ 0 →
        te.resdom.reskeyop ∈ sortopsOf pks6 ∧ te.resdom.reskeyop ≠ 0) ∧
    (∀ (st : SortState) (ks : List PathKeyItem) (pk : PathKeyItem)
        (idx : Nat) (te : TargetEntry),
      findMemberItem ks st.sort_tlist = some (pk, idx) →
      st.sort_tlist.get? idx = some te →
      te.resdom.reskey ≠ 0 →
      processPathkey cat0 [1] st ks = some st)) := by
  have h1 : pks6 ≠ [] := by simp [pks6]
  have h2 : ∀ op ∈ sortopsOf pks6, op ≠ 0 := by
    intro op hop
    simp [sortopsOf, pks6] at hop
    simp [hop]
  have hh : make_sort_from_pathkeys q6 cat0 P6 [1] pks6 = some S6 := by
    simp [make_sort_from_pathkeys, processPathkeys, processPathkey,
      findMemberItem, tlist_member, exprEqual, exprEqualList, assignSortKey,
      new_unsorted_tlist, make_sort, copy_plan_costsize, Plan.cost, cat0,
      pks6, P6, te6, S6, Plan.targetlist, q6]
    norm_num
  exact ⟨h1, h2, hh, claim_C6_sort_keys q6 cat0 P6 [1] pks6 S6 h1 h2 hh⟩
